import Mathlib

/-!
Query extraction, reference resolution and caching in `packages/preprocess/index.cjs`.

A shallow embedding of `updateExtractedQueriesDir` and of the JavaScript string
primitives it relies on, followed by theorems about reference resolution,
block classification and the extracted-queries cache.

Conventions of the embedding:

* A JavaScript string is a list of characters, one list element per UTF-16
  code unit.
* The engine's maximum string length is a parameter `maxLen` (ECMAScript allows
  at most `2^53 - 1`; V8 allows `2^29 - 24`).  Building a longer string throws a
  `RangeError`: inside the `try` of source lines 225-231 it is caught and
  reported as a circular reference, elsewhere it ends the run, which is the
  result `none`.
* The mutable `queries` array is a list that every step returns anew; a query is
  addressed by its index.
* What the source takes from libraries (`md5`, `JSON.stringify`,
  `toLowerCase`, the supported languages and the Prism alias table) is a
  parameter, gathered in `Env`.  The parsed document is the list of its `code`
  nodes in document order.
-/

namespace Preprocess

/-- A JavaScript string value. -/
abbrev Str := List Char

/-! ## String primitives -/

/-- Line terminators of ECMAScript: the characters the regular-expression atom `.`
does not match. -/
def isLineTerminator (c : Char) : Bool :=
  c.toNat == 0x0A || c.toNat == 0x0D || c.toNat == 0x2028 || c.toNat == 0x2029

/-- White space of ECMAScript (`WhiteSpace` and `LineTerminator`), the characters
`String.prototype.trim` strips. -/
def isTrimChar (c : Char) : Bool :=
  isLineTerminator c ||
  c.toNat == 0x09 || c.toNat == 0x0B || c.toNat == 0x0C || c.toNat == 0x20 ||
  c.toNat == 0xA0 || c.toNat == 0x1680 || (0x2000 ≤ c.toNat && c.toNat ≤ 0x200A) ||
  c.toNat == 0x202F || c.toNat == 0x205F || c.toNat == 0x3000 || c.toNat == 0xFEFF

/-- The method `String.prototype.trim`. -/
def trim (s : Str) : Str :=
  ((s.dropWhile isTrimChar).reverse.dropWhile isTrimChar).reverse

/-- The lazy body `.*?\}` of the reference pattern, tried right after a `${`:
the characters up to the first `}`, provided no line terminator comes before it. -/
def scanBody : Str → Option Str
  | [] => none
  | c :: cs =>
    if c = '}' then some []
    else if isLineTerminator c then none
    else (scanBody cs).map (fun inner => c :: inner)

/-- The match of `/\${.*?\}/` that starts exactly at the head of the string. -/
def matchAt : Str → Option Str
  | '$' :: '{' :: cs => (scanBody cs).map (fun inner => '$' :: '{' :: (inner ++ ['}']))
  | _ => none

/-- All matches of the global pattern, scanning left to right; `skip` counts the
characters of the previous match that are still to be stepped over. -/
def matchAllFrom : Nat → Str → List Str
  | _, [] => []
  | skip + 1, _ :: cs => matchAllFrom skip cs
  | 0, c :: cs =>
    match matchAt (c :: cs) with
    | some m => m :: matchAllFrom (m.length - 1) cs
    | none => matchAllFrom 0 cs

/-- The call `str.match(/\${.*?\}/gi)`; the empty list stands for `null`. -/
def matchRefs (s : Str) : List Str := matchAllFrom 0 s

/-- Splits a string around the first occurrence of `pat`: the text before it and
the text after it. -/
def splitFirst (pat : Str) : Str → Option (Str × Str)
  | [] => if pat = [] then some ([], []) else none
  | c :: cs =>
    if pat.isPrefixOf (c :: cs) then some ([], (c :: cs).drop pat.length)
    else (splitFirst pat cs).map (fun r => (c :: r.1, r.2))

/-- The abstract operation `GetSubstitution` for a string pattern (no capture
groups): `$$` is a dollar sign, `$&` the matched text, `$` followed by a
backquote the text before the match, `$` followed by a quote the text after it;
every other character stands for itself. -/
def getSubstitution (matched before after : Str) : Str → Str
  | '$' :: '$' :: rest => '$' :: getSubstitution matched before after rest
  | '$' :: '&' :: rest => matched ++ getSubstitution matched before after rest
  | '$' :: '\x60' :: rest => before ++ getSubstitution matched before after rest
  | '$' :: '\x27' :: rest => after ++ getSubstitution matched before after rest
  | c :: rest => c :: getSubstitution matched before after rest
  | [] => []

/-- The method `String.prototype.replace` with a string pattern and a string
replacement: only the first occurrence is replaced. -/
def replaceFirst (s pat replacement : Str) : Str :=
  match splitFirst pat s with
  | none => s
  | some (before, after) => before ++ getSubstitution pat before after replacement ++ after

/-! ## Queries and reference resolution -/

/-- One entry of the `queries` array. -/
structure Query where
  id : Str
  compiledQueryString : Str
  inputQueryString : Str
  compiled : Bool
  compileError : Option Str
deriving DecidableEq, Repr

/-- The constant `maxIterations`. -/
def maxIterations : Nat := 100

/-- The message set on a circular reference. -/
def circularMessage : Str := "Compiler error: circular reference".toList

/-- The message built on source line 216 for a reference to an unknown id. -/
def missingMessage (referencedQueryID : Str) : Str :=
  "Compiler error: ".toList ++
    (if referencedQueryID = [] then "missing query reference".toList
     else "'".toList ++ referencedQueryID ++ "'".toList ++ " is not a query on this page".toList)

/-- The id a reference token names:
`reference.replace("${", "").replace("}", "").trim()`. -/
def referencedId (reference : Str) : Str :=
  trim (replaceFirst (replaceFirst reference ['$', '{'] []) ['}'] [])

/-- A freshly built string, or `none` for the `RangeError` thrown when it would
be longer than the engine allows. -/
def checked (maxLen : Nat) (s : Str) : Option Str :=
  if s.length ≤ maxLen then some s else none

/-- Overwrites the query at index `j`. -/
def setAt (qs : List Query) (j : Nat) (q : Query) : List Query := qs.set j q

/-- The body of `references.forEach` (source lines 214-232) for the query at
index `j` in pass `i`.  `none` is an uncaught `RangeError`. -/
def stepReference (maxLen i : Nat) (queryIds : List Str) (j : Nat)
    (qs : List Query) (reference : Str) : Option (List Query) :=
  match qs.get? j with
  | none => some qs
  | some query =>
    let referencedQueryID := referencedId reference
    if ¬ (referencedQueryID ∈ queryIds) then
      (checked maxLen (missingMessage referencedQueryID)).map fun errorMessage =>
        setAt qs j { query with compileError := some errorMessage,
                                compiledQueryString := errorMessage }
    else if i = maxIterations then
      some (setAt qs j { query with compileError := some circularMessage,
                                    compiledQueryString := circularMessage })
    else
      match qs.find? (fun d => d.id = referencedQueryID) with
      | none => none
      | some target =>
        (checked maxLen ("(".toList ++ target.compiledQueryString ++ ")".toList)).map
          fun referencedQuery =>
            match checked maxLen
                (replaceFirst query.compiledQueryString reference referencedQuery) with
            | some replaced => setAt qs j { query with compiledQueryString := replaced }
            | none => setAt qs j { query with compileError := some circularMessage,
                                              compiledQueryString := circularMessage }

/-- Runs `stepReference` over the references found in a query, in order. -/
def stepReferences (maxLen i : Nat) (queryIds : List Str) (j : Nat) :
    List Query → List Str → Option (List Query)
  | qs, [] => some qs
  | qs, r :: rs =>
    match stepReference maxLen i queryIds j qs r with
    | none => none
    | some qs1 => stepReferences maxLen i queryIds j qs1 rs

/-- The body of `queries.forEach` (source lines 210-234) for the query at index `j`. -/
def processQuery (maxLen i : Nat) (queryIds : List Str) (j : Nat)
    (qs : List Query) : Option (List Query) :=
  match qs.get? j with
  | none => some qs
  | some query =>
    match matchRefs query.compiledQueryString with
    | [] => some qs
    | r :: rs =>
      stepReferences maxLen i queryIds j (setAt qs j { query with compiled := true }) (r :: rs)

/-- Processes the queries at the given indices, in order. -/
def processFrom (maxLen i : Nat) (queryIds : List Str) :
    List Nat → List Query → Option (List Query)
  | [], qs => some qs
  | j :: js, qs =>
    match processQuery maxLen i queryIds j qs with
    | none => none
    | some qs1 => processFrom maxLen i queryIds js qs1

/-- One pass of the outer loop: `queries.forEach(...)` for a given `i`. -/
def onePass (maxLen i : Nat) (queryIds : List Str) (qs : List Query) : Option (List Query) :=
  processFrom maxLen i queryIds (List.range qs.length) qs

/-- Runs passes `i`, `i + 1`, ..., `i + n - 1`. -/
def passesFrom (maxLen : Nat) (queryIds : List Str) :
    Nat → Nat → List Query → Option (List Query)
  | 0, _, qs => some qs
  | n + 1, i, qs =>
    match onePass maxLen i queryIds qs with
    | none => none
    | some qs1 => passesFrom maxLen queryIds n (i + 1) qs1

/-- The state after the first `n` passes of the loop on source line 208. -/
def afterPasses (maxLen n : Nat) (qs : List Query) : Option (List Query) :=
  passesFrom maxLen (qs.map (·.id)) n 0 qs

/-- The whole resolution loop: passes `0` to `maxIterations` inclusive. -/
def resolve (maxLen : Nat) (qs : List Query) : Option (List Query) :=
  afterPasses maxLen (maxIterations + 1) qs

/-- A query as pushed on source lines 196-201. -/
def mkQuery (id body : Str) : Query :=
  { id := id, compiledQueryString := body, inputQueryString := body,
    compiled := false, compileError := none }

/-! ## Block classification -/

/-- A `code` node of the parsed document: the fence label, if any, and the text. -/
structure CodeNode where
  lang : Option Str
  value : Str
deriving DecidableEq, Repr

/-- The set `prismLangs` of source lines 10-24: every supported language and the
aliases of its Prism component.  `supportedLangs` comes from
`supportedLanguages.cjs` and `aliasesOf` from `prismjs/components`; both are
parameters (a language without component or alias has no aliases). -/
def prismLangs (supportedLangs : List Str) (aliasesOf : Str → List Str) : List Str :=
  supportedLangs.foldr (fun l acc => l :: (aliasesOf l ++ acc)) []

/-- The label of a block: `node.lang ?? 'untitled'`. -/
def labelOf (node : CodeNode) : Str := node.lang.getD "untitled".toList

/-- The visitor of source lines 192-202, over the `code` nodes in document order.
`toLowerCase` is `String.prototype.toLowerCase` and `langs` is `prismLangs`. -/
def extractQueries (toLowerCase : Str → Str) (langs : List Str) : List CodeNode → List Query
  | [] => []
  | node :: rest =>
    if toLowerCase (labelOf node) ∈ langs then extractQueries toLowerCase langs rest
    else mkQuery (labelOf node) (trim node.value) :: extractQueries toLowerCase langs rest

/-! ## The extracted-queries cache -/

/-- An md5 digest: 128 bits, printed by `md5` as 32 hexadecimal digits. -/
abbrev Digest := Fin (2 ^ 128)

/-- A file name inside a document directory: `<digest>.json`, or any other name. -/
inductive FileName where
  | json (d : Digest)
  | other (name : Str)
deriving DecidableEq

/-- A document directory: its files and what they hold. -/
abbrev Dir := List (FileName × List Query)

/-- The content of `./.evidence-queries/extracted`: for each route hash the
directory of that name, if it exists.  (The two parent directories are created
on entry, source lines 177-182.) -/
abbrev CacheState := Digest → Option Dir

/-- The functions the engine takes from its runtime and libraries. -/
structure Env where
  /-- Maximum length of a string in the engine. -/
  maxLen : Nat
  /-- The library function `md5` (blueimp-md5). -/
  md5 : Str → Digest
  /-- The function `JSON.stringify` on the query array. -/
  stringify : List Query → Str
  /-- The method `String.prototype.toLowerCase`. -/
  toLowerCase : Str → Str
  /-- The list `supportedLangs`. -/
  supportedLangs : List Str
  /-- The aliases of a language in `PrismComponents.languages`. -/
  aliasesOf : Str → List Str

/-- The function `getRouteHash`: `md5` of
`filename.split("/src/pages")[1].replace(".md","")`; `none` when the file name
has no `/src/pages` part (a `TypeError`). -/
def getRouteHash (env : Env) (filename : Str) : Option Digest :=
  match splitFirst "/src/pages".toList filename with
  | none => none
  | some (_, rest) =>
    let route := match splitFirst "/src/pages".toList rest with
      | none => rest
      | some (part, _) => part
    some (env.md5 (replaceFirst route ".md".toList []))

/-- Whether the file `name` exists in the directory of `routeHash`. -/
def fileExists (fs : CacheState) (routeHash : Digest) (name : FileName) : Bool :=
  match fs routeHash with
  | none => false
  | some dir => dir.any (fun f => f.1 = name)

/-- The call `removeSync(queryDir)`. -/
def removeDir (fs : CacheState) (routeHash : Digest) : CacheState :=
  Function.update fs routeHash none

/-- The directory after `mkdirSync` (when it was missing) or `emptyDirSync`
(when it existed), followed by `writeJSONSync` of the one artifact. -/
def writeOnly (fs : CacheState) (routeHash : Digest) (name : FileName)
    (queries : List Query) : CacheState :=
  Function.update fs routeHash (some [(name, queries)])

/-- The `queries` array as the visitor leaves it (source lines 186-202). -/
def extractedOf (env : Env) (nodes : List CodeNode) : List Query :=
  extractQueries env.toLowerCase (prismLangs env.supportedLangs env.aliasesOf) nodes

/-- The function `updateExtractedQueriesDir`, on the `code` nodes of the parsed
content.  The result is the returned id list and the new cache state; `none` is
an exception. -/
def updateExtractedQueriesDir (env : Env) (nodes : List CodeNode) (filename : Str)
    (fs : CacheState) : Option (List Str × CacheState) :=
  match getRouteHash env filename with
  | none => none
  | some routeHash =>
    let queries0 := extractedOf env nodes
    let queryIds := queries0.map (·.id)
    match resolve env.maxLen queries0 with
    | none => none
    | some queries =>
      if queries.length = 0 then some ([], removeDir fs routeHash)
      else
        let queryHash := env.md5 (env.stringify queries)
        if fileExists fs routeHash (FileName.json queryHash) then some (queryIds, fs)
        else some (queryIds, writeOnly fs routeHash (FileName.json queryHash) queries)

/-! ## Predicates and shapes used in the statements -/

/-- A well-formed reference token around `inner`. -/
def token (inner : Str) : Str := '$' :: '{' :: (inner ++ ['}'])

/-- The characters a lazy `.*?` may run over before the closing brace. -/
def innerOk (inner : Str) : Prop := ∀ c ∈ inner, c ≠ '}' ∧ isLineTerminator c = false

instance (inner : Str) : Decidable (innerOk inner) := by
  unfold innerOk
  infer_instance

/-- No match starts inside `pre` when `pre` is followed by `z`. -/
def noMatchIn (pre z : Str) : Prop :=
  ∀ p1 p2, pre = p1 ++ p2 → p2 ≠ [] → matchAt (p2 ++ z) = none

/-- The characters that, right after a `$`, make `replace` treat the pair as a
replacement pattern: `$`, `&`, backquote and quote. -/
def specialAfterDollar (c : Char) : Bool :=
  c = '$' || c = '&' || c = '\x60' || c = '\x27'

/-- No `$` of the string is directly followed by a character satisfying `bad`. -/
def avoids (bad : Char → Bool) : Str → Bool
  | '$' :: c :: rest => !bad c && avoids bad (c :: rest)
  | _ :: rest => avoids bad rest
  | [] => true

/-- Text that `replace` inserts verbatim: it holds no replacement pattern. -/
def literalText (s : Str) : Bool := avoids specialAfterDollar s

/-- Literal text that, besides, never opens a reference token with `${`. -/
def plainText (s : Str) : Bool := avoids (fun c => c = '{' || specialAfterDollar c) s

/-- A query whose error, when set, is also its body and has no closing brace. -/
def Good (q : Query) : Prop :=
  ∀ m, q.compileError = some m → q.compiledQueryString = m ∧ '}' ∉ m

/-- A good query whose body holds no reference token. -/
def Settled (q : Query) : Prop := Good q ∧ matchRefs q.compiledQueryString = []

/-- Every query of the list is good. -/
def AllGood (qs : List Query) : Prop := ∀ k q, qs.get? k = some q → Good q

/-- The query at index `k`, if any, is settled. -/
def SettledAt (qs : List Query) (k : Nat) : Prop := ∀ q, qs.get? k = some q → Settled q

/-- The text `s` between parentheses. -/
def paren (s : Str) : Str := '(' :: (s ++ [')'])

/-- The query with a new compiled body. -/
def withBody (q : Query) (s : Str) : Query := { q with compiledQueryString := s }

/-- The query flagged as compiled. -/
def markCompiled (q : Query) : Query := { q with compiled := true }

/-- The query with an error message as its error and its body. -/
def withError (q : Query) (m : Str) : Query :=
  { q with compileError := some m, compiledQueryString := m }

/-- No query of the list holds a reference token. -/
def NoRefs (qs : List Query) : Prop := ∀ q ∈ qs, matchRefs q.compiledQueryString = []

/-- An id that a reference token can name: it has no closing brace, no line
terminator and no white space at either end. -/
def Referable (id : Str) : Prop := innerOk id ∧ trim id = id

instance (id : Str) : Decidable (Referable id) := by
  unfold Referable
  infer_instance

/-- The substitution as the specification words it: the first occurrence of
`pat` in `s` gives way to `r`, taken as it stands. -/
def spliceFirst (s pat r : Str) : Str :=
  match splitFirst pat s with
  | none => s
  | some (before, after) => before ++ r ++ after

/-- The text `s` inside `p` nested pairs of parentheses. -/
def wrapN (p : Nat) (s : Str) : Str := List.replicate p '(' ++ (s ++ List.replicate p ')')

/-- An environment for the worked examples.  The digest is the length of the
text and the serialisation joins ids and compiled bodies; `sql` and
`javascript`, with the alias `js`, are the recognised languages. -/
def exampleEnv : Env where
  maxLen := 536870888
  md5 := fun s => ⟨s.length % 2 ^ 128, Nat.mod_lt _ (by decide)⟩
  stringify := fun qs => (qs.map (fun q => q.id ++ q.compiledQueryString)).flatten
  toLowerCase := fun s => s.map Char.toLower
  supportedLangs := ["sql".toList, "javascript".toList]
  aliasesOf := fun l => if l = "javascript".toList then ["js".toList] else []

/-- The body of query `l` of a chain as written: a reference to the next query,
or the text `T` for the last one. -/
def body0 (n : Nat) (ident : Nat → Str) (T : Str) (l : Nat) : Str :=
  if l < n then token (ident (l + 1)) else T

/-- Query `i` of a chain once it has been resolved as far as query `l`: the
body of `l` inside `l - i` pairs of parentheses. -/
def stateQ (n : Nat) (ident : Nat → Str) (T : Str) (i l : Nat) : Query :=
  { id := ident i, compiledQueryString := wrapN (l - i) (body0 n ident T l),
    inputQueryString := body0 n ident T i, compiled := decide (i < l), compileError := none }

/-- The queries of a chain in the document order `L`, query `i` being resolved
as far as `lev i`. -/
def chainState (n : Nat) (ident : Nat → Str) (T : Str) (L : List Nat) (lev : Nat → Nat) :
    List Query :=
  L.map (fun i => stateQ n ident T i (lev i))

/-- The levels after query `i` has been processed once. -/
def advance (n : Nat) (lev : Nat → Nat) (i : Nat) : Nat → Nat :=
  if lev i < n then Function.update lev i (lev (lev i + 1)) else lev

/-- What is assumed of a chain `q0, ..., qn` laid out in the order `L`: the ids
are distinct, those that are referenced can be named by a token and are
inserted verbatim, the text `T` holds no reference token and is inserted
verbatim, and the nested strings fit the string limit. -/
structure ChainOk (maxLen n : Nat) (ident : Nat → Str) (T : Str) (L : List Nat) : Prop where
  perm : L.Perm (List.range (n + 1))
  inj : ∀ i j, i ≤ n → j ≤ n → ident i = ident j → i = j
  referable : ∀ i, 1 ≤ i → i ≤ n → Referable (ident i)
  literalId : ∀ i, 1 ≤ i → i ≤ n → literalText (ident i) = true
  literalT : literalText T = true
  noRefT : matchRefs T = []
  fitId : ∀ i, 1 ≤ i → i ≤ n → 2 * n + (token (ident i)).length ≤ maxLen
  fitT : 2 * n + T.length ≤ maxLen

/-- Every level lies between its own index and `n`. -/
def LevInv (n : Nat) (lev : Nat → Nat) : Prop := ∀ i, i ≤ n → i ≤ lev i ∧ lev i ≤ n

/-- Every query is resolved at least `k` steps ahead, or to the end. -/
def LevProg (n k : Nat) (lev : Nat → Nat) : Prop := ∀ i, i ≤ n → min n (i + k) ≤ lev i

/-! ## Facts about the reference pattern -/

theorem scanBody_no_brace (s : Str) (h : '}' ∉ s) : scanBody s = none := by
  induction s with
  | nil => rfl
  | cons c cs ih =>
    have hc : c ≠ '}' := fun e => h (e ▸ List.mem_cons_self _ _)
    have hcs : '}' ∉ cs := fun m => h (List.mem_cons_of_mem _ m)
    simp [scanBody, hc, ih hcs]

theorem scanBody_inner (inner rest : Str) (h : innerOk inner) :
    scanBody (inner ++ '}' :: rest) = some inner := by
  induction inner with
  | nil => simp [scanBody]
  | cons c cs ih =>
    have hc := h c (List.mem_cons_self _ _)
    have hcs : innerOk cs := fun d hd => h d (List.mem_cons_of_mem _ hd)
    simp [scanBody, hc.1, hc.2, ih hcs]

theorem scanBody_some (s inner : Str) (h : scanBody s = some inner) :
    innerOk inner ∧ ∃ rest, s = inner ++ '}' :: rest := by
  induction s generalizing inner with
  | nil => simp [scanBody] at h
  | cons c cs ih =>
    unfold scanBody at h
    by_cases hc : c = '}'
    · simp [hc] at h
      subst h
      exact ⟨fun d hd => by simp at hd, cs, by simp [hc]⟩
    · by_cases hl : isLineTerminator c = true
      · simp [hc, hl] at h
      · simp [hc, hl] at h
        obtain ⟨i, hi, rfl⟩ := h
        obtain ⟨hok, rest, hrest⟩ := ih i hi
        refine ⟨?_, rest, by simp [hrest]⟩
        intro d hd
        rcases List.mem_cons.1 hd with rfl | hd
        · exact ⟨hc, by simpa using hl⟩
        · exact hok d hd

theorem matchAt_token (inner rest : Str) (h : innerOk inner) :
    matchAt (token inner ++ rest) = some (token inner) := by
  have : token inner ++ rest = '$' :: '{' :: (inner ++ '}' :: rest) := by simp [token]
  rw [this]
  simp [matchAt, scanBody_inner inner rest h, token]

theorem matchAt_some (s m : Str) (h : matchAt s = some m) :
    ∃ inner rest, innerOk inner ∧ m = token inner ∧ s = token inner ++ rest := by
  unfold matchAt at h
  split at h
  · rename_i cs
    simp only [Option.map_eq_some'] at h
    obtain ⟨inner, hi, rfl⟩ := h
    obtain ⟨hok, rest, hrest⟩ := scanBody_some cs inner hi
    exact ⟨inner, rest, hok, rfl, by simp [token, hrest]⟩
  · simp at h

theorem matchAt_not_dollar (c : Char) (cs : Str) (h : c ≠ '$') : matchAt (c :: cs) = none := by
  unfold matchAt
  split
  · rename_i heq
    simp at heq
    exact absurd heq.1 h
  · rfl

theorem matchAllFrom_skip (k : Nat) (s : Str) : matchAllFrom k s = matchAllFrom 0 (s.drop k) := by
  induction s generalizing k with
  | nil => simp [matchAllFrom]
  | cons c cs ih =>
    cases k with
    | zero => rfl
    | succ k => simpa [matchAllFrom] using ih k

theorem matchRefs_cons_none (c : Char) (cs : Str) (h : matchAt (c :: cs) = none) :
    matchRefs (c :: cs) = matchRefs cs := by
  simp [matchRefs, matchAllFrom, h]

theorem matchRefs_token (inner rest : Str) (h : innerOk inner) :
    matchRefs (token inner ++ rest) = token inner :: matchRefs rest := by
  have hm := matchAt_token inner rest h
  have e : token inner ++ rest = '$' :: ('{' :: (inner ++ ['}']) ++ rest) := by simp [token]
  rw [e] at hm ⊢
  simp only [matchRefs, matchAllFrom, hm]
  rw [matchAllFrom_skip]
  simp [token]

theorem matchRefs_cons_some (c : Char) (cs m : Str) (h : matchAt (c :: cs) = some m) :
    matchRefs (c :: cs) = m :: matchRefs ((c :: cs).drop m.length) := by
  obtain ⟨inner, rest, hok, rfl, hs⟩ := matchAt_some _ _ h
  rw [hs, matchRefs_token inner rest hok]
  simp

theorem noMatchIn_tail {c : Char} {pre z : Str} (h : noMatchIn (c :: pre) z) : noMatchIn pre z :=
  fun p1 p2 e hne => h (c :: p1) p2 (by simp [e]) hne

theorem matchRefs_append_of_noMatchIn (pre z : Str) (h : noMatchIn pre z) :
    matchRefs (pre ++ z) = matchRefs z := by
  induction pre with
  | nil => rfl
  | cons c cs ih =>
    have h0 : matchAt (c :: cs ++ z) = none := h [] (c :: cs) rfl (by simp)
    rw [List.cons_append, matchRefs_cons_none c (cs ++ z) h0]
    exact ih (noMatchIn_tail h)

theorem noMatchIn_of_no_dollar (pre z : Str) (h : '$' ∉ pre) : noMatchIn pre z := by
  intro p1 p2 e hne
  cases p2 with
  | nil => exact absurd rfl hne
  | cons c cs =>
    apply matchAt_not_dollar
    rintro rfl
    exact h (by simp [e])

theorem matchAt_no_brace (s : Str) (h : '}' ∉ s) : matchAt s = none := by
  cases hm : matchAt s with
  | none => rfl
  | some m =>
    obtain ⟨inner, rest, _, _, hs⟩ := matchAt_some _ _ hm
    exact absurd (by simp [hs, token]) h

theorem matchRefs_no_brace (s : Str) (h : '}' ∉ s) : matchRefs s = [] := by
  have := matchRefs_append_of_noMatchIn s [] (by
    intro p1 p2 e _
    apply matchAt_no_brace
    intro hm
    apply h
    rw [e]
    simp at hm
    simp [hm])
  simpa using this

theorem matchRefs_no_dollar (s : Str) (h : '$' ∉ s) : matchRefs s = [] := by
  simpa using matchRefs_append_of_noMatchIn s [] (noMatchIn_of_no_dollar s [] h)

theorem mem_matchRefs_aux (n : Nat) : ∀ (s m : Str), s.length ≤ n → m ∈ matchRefs s →
    ∃ inner, innerOk inner ∧ m = token inner := by
  induction n with
  | zero =>
    intro s m hl h
    have : s = [] := List.length_eq_zero.1 (Nat.le_zero.1 hl)
    subst this
    simp [matchRefs, matchAllFrom] at h
  | succ n ih =>
    intro s m hl h
    cases s with
    | nil => simp [matchRefs, matchAllFrom] at h
    | cons c cs =>
      have hcs : cs.length ≤ n := by simpa using hl
      cases hm : matchAt (c :: cs) with
      | none =>
        rw [matchRefs_cons_none c cs hm] at h
        exact ih cs m hcs h
      | some m0 =>
        rw [matchRefs_cons_some c cs m0 hm] at h
        obtain ⟨inner, rest, hok, rfl, hs⟩ := matchAt_some _ _ hm
        rcases List.mem_cons.1 h with rfl | h
        · exact ⟨inner, hok, rfl⟩
        · refine ih _ m ?_ h
          have ht : 0 < (token inner).length := by simp [token]
          have hc : (c :: cs).length = cs.length + 1 := rfl
          rw [List.length_drop]
          omega

/-- Every match is a well-formed token. -/
theorem mem_matchRefs (s m : Str) (h : m ∈ matchRefs s) :
    ∃ inner, innerOk inner ∧ m = token inner :=
  mem_matchRefs_aux s.length s m (Nat.le_refl _) h

/-- A string whose only match is `tok` splits around it. -/
theorem matchRefs_single (s tok : Str) (h : matchRefs s = [tok]) :
    ∃ pre inner post, s = pre ++ (token inner ++ post) ∧ tok = token inner ∧ innerOk inner ∧
      noMatchIn pre (token inner ++ post) ∧ matchRefs post = [] := by
  induction s with
  | nil => simp [matchRefs, matchAllFrom] at h
  | cons c cs ih =>
    cases hm : matchAt (c :: cs) with
    | none =>
      rw [matchRefs_cons_none c cs hm] at h
      obtain ⟨pre, inner, post, hs, ht, hok, hno, hpost⟩ := ih h
      refine ⟨c :: pre, inner, post, by simp [hs], ht, hok, ?_, hpost⟩
      intro p1 p2 e hne
      cases p1 with
      | nil =>
        simp at e
        subst e
        simpa [hs] using hm
      | cons d p1 =>
        simp at e
        exact hno p1 p2 e.2 hne
    | some m0 =>
      rw [matchRefs_cons_some c cs m0 hm] at h
      obtain ⟨inner, rest, hok, rfl, hs⟩ := matchAt_some _ _ hm
      simp only [List.cons.injEq] at h
      refine ⟨[], inner, rest, by simp [hs], h.1.symm, hok, ?_, ?_⟩
      · intro p1 p2 e hne
        simp at e
        exact absurd e.2 hne
      · have := h.2
        rw [hs] at this
        simpa using this

theorem avoids_cons_ne (bad : Char → Bool) (c : Char) (s : Str) (hc : c ≠ '$') :
    avoids bad (c :: s) = avoids bad s := by
  conv => lhs; unfold avoids
  split
  · rename_i heq; simp at heq; exact absurd heq.1 hc
  · rename_i heq; simp at heq; rw [heq.2]
  · simp at *

theorem avoids_dollar (bad : Char → Bool) (d : Char) (s : Str) :
    avoids bad ('$' :: d :: s) = (!bad d && avoids bad (d :: s)) := by
  simp [avoids]

theorem avoids_tail (bad : Char → Bool) (c : Char) (s : Str) (h : avoids bad (c :: s) = true) :
    avoids bad s = true := by
  by_cases hc : c = '$'
  · subst hc
    cases s with
    | nil => rfl
    | cons d s =>
      rw [avoids_dollar] at h
      simp only [Bool.and_eq_true] at h
      exact h.2
  · rwa [avoids_cons_ne bad c s hc] at h

theorem avoids_suffix (bad : Char → Bool) (p s : Str) (h : avoids bad (p ++ s) = true) :
    avoids bad s = true := by
  induction p with
  | nil => exact h
  | cons c p ih => exact ih (avoids_tail bad c _ h)

/-- Appending text that starts with a harmless character. -/
theorem avoids_append (bad : Char → Bool) (s t : Str) (hs : avoids bad s = true)
    (ht : avoids bad t = true) (hhead : ∀ c, t.head? = some c → bad c = false) :
    avoids bad (s ++ t) = true := by
  induction s with
  | nil => exact ht
  | cons c s ih =>
    have h1 := ih (avoids_tail bad c s hs)
    by_cases hc : c = '$'
    · subst hc
      cases s with
      | nil =>
        cases t with
        | nil => rfl
        | cons d t =>
          simp only [List.cons_append, List.nil_append]
          rw [avoids_dollar]
          simp [hhead d rfl, ht]
      | cons d s =>
        rw [avoids_dollar] at hs
        simp only [List.cons_append]
        rw [avoids_dollar]
        simp only [Bool.and_eq_true] at hs ⊢
        exact ⟨hs.1, by simpa using h1⟩
    · simp only [List.cons_append]
      rw [avoids_cons_ne bad c _ hc]
      exact h1

theorem avoids_mono (bad bad2 : Char → Bool) (hb : ∀ c, bad2 c = true → bad c = true) (s : Str)
    (h : avoids bad s = true) : avoids bad2 s = true := by
  induction s with
  | nil => rfl
  | cons c s ih =>
    have h1 := ih (avoids_tail bad c s h)
    by_cases hc : c = '$'
    · subst hc
      cases s with
      | nil => rfl
      | cons d s =>
        rw [avoids_dollar] at h ⊢
        simp only [Bool.and_eq_true, Bool.not_eq_true'] at h ⊢
        refine ⟨?_, h1⟩
        cases hd : bad2 d with
        | false => rfl
        | true => rw [hb d hd] at h; exact absurd h.1 (by simp)
    · rw [avoids_cons_ne bad2 c s hc]
      exact h1

theorem literalText_of_plainText (s : Str) (h : plainText s = true) : literalText s = true :=
  avoids_mono _ _ (fun c hc => by simp [hc]) s h

theorem getSubstitution_cons_ne (m b a : Str) (c : Char) (r : Str) (hc : c ≠ '$') :
    getSubstitution m b a (c :: r) = c :: getSubstitution m b a r := by
  conv => lhs; unfold getSubstitution
  split
  · rename_i heq; simp at heq; exact absurd heq.1 hc
  · rename_i heq; simp at heq; exact absurd heq.1 hc
  · rename_i heq; simp at heq; exact absurd heq.1 hc
  · rename_i heq; simp at heq; exact absurd heq.1 hc
  · rename_i heq; simp at heq; obtain ⟨rfl, rfl⟩ := heq; rfl
  · simp at *

theorem getSubstitution_dollar (m b a : Str) (d : Char) (r : Str)
    (h1 : d ≠ '$') (h2 : d ≠ '&') (h3 : d ≠ '\x60') (h4 : d ≠ '\x27') :
    getSubstitution m b a ('$' :: d :: r) = '$' :: getSubstitution m b a (d :: r) := by
  conv => lhs; unfold getSubstitution
  split
  · rename_i heq; simp at heq; exact absurd heq.1 h1
  · rename_i heq; simp at heq; exact absurd heq.1 h2
  · rename_i heq; simp at heq; exact absurd heq.1 h3
  · rename_i heq; simp at heq; exact absurd heq.1 h4
  · rename_i heq; simp at heq; obtain ⟨rfl, rfl⟩ := heq; rfl
  · simp at *

/-- Literal text is inserted as it stands. -/
theorem getSubstitution_literal (m b a : Str) (r : Str) (h : literalText r = true) :
    getSubstitution m b a r = r := by
  induction r with
  | nil => rfl
  | cons c r ih =>
    have hr := ih (avoids_tail _ c r h)
    by_cases hc : c = '$'
    · subst hc
      cases r with
      | nil => rfl
      | cons d r =>
        unfold literalText at h
        rw [avoids_dollar] at h
        simp only [specialAfterDollar, Bool.and_eq_true, Bool.not_eq_true', Bool.or_eq_false_iff,
          decide_eq_false_iff_not] at h
        obtain ⟨⟨⟨⟨h2, h3⟩, h4⟩, h5⟩, _⟩ := h
        rw [getSubstitution_dollar m b a d r h2 h3 h4 h5, hr]
    · rw [getSubstitution_cons_ne m b a c r hc, hr]

/-- Wrapping in parentheses keeps a text free of the avoided pairs. -/
theorem avoids_wrap (bad : Char → Bool) (hb : bad ')' = false) (s : Str)
    (h : avoids bad s = true) : avoids bad ('(' :: (s ++ [')'])) = true := by
  rw [avoids_cons_ne _ _ _ (by decide)]
  apply avoids_append bad s [')'] h rfl
  intro c hc
  simp at hc
  rw [← hc]
  exact hb

theorem splitFirst_at (pat pre post : Str) (hne : pat ≠ [])
    (h : ∀ p1 p2, pre = p1 ++ p2 → p2 ≠ [] → pat.isPrefixOf (p2 ++ (pat ++ post)) = false) :
    splitFirst pat (pre ++ (pat ++ post)) = some (pre, post) := by
  induction pre with
  | nil =>
    cases pat with
    | nil => exact absurd rfl hne
    | cons a pat =>
      have hp : (a :: pat).isPrefixOf (a :: pat ++ post) = true := by
        rw [List.isPrefixOf_iff_prefix]
        exact List.prefix_append _ _
      simp only [List.nil_append, List.cons_append] at hp ⊢
      simp only [splitFirst, hp, if_true]
      simp
  | cons c pre ih =>
    have h0 := h [] (c :: pre) rfl (by simp)
    have ih' := ih (fun p1 p2 e hne2 => h (c :: p1) p2 (by simp [e]) hne2)
    simp only [List.cons_append] at h0 ⊢
    simp only [splitFirst, h0, ih']
    simp

theorem matchAt_of_prefix (inner t : Str) (hok : innerOk inner)
    (h : (token inner).isPrefixOf t = true) : matchAt t = some (token inner) := by
  rw [List.isPrefixOf_iff_prefix] at h
  obtain ⟨r, rfl⟩ := h
  exact matchAt_token inner r hok

/-- Replacing the only token of a string: the first occurrence of the token text
is the match itself. -/
theorem replaceFirst_token (pre inner post r : Str) (hok : innerOk inner)
    (hno : noMatchIn pre (token inner ++ post)) :
    replaceFirst (pre ++ (token inner ++ post)) (token inner) r =
      pre ++ getSubstitution (token inner) pre post r ++ post := by
  have hs : splitFirst (token inner) (pre ++ (token inner ++ post)) = some (pre, post) := by
    apply splitFirst_at _ _ _ (by simp [token])
    intro p1 p2 e hne
    cases hp : (token inner).isPrefixOf (p2 ++ (token inner ++ post)) with
    | false => rfl
    | true =>
      have h1 := matchAt_of_prefix inner _ hok hp
      rw [hno p1 p2 e hne] at h1
      exact absurd h1 (by simp)
  simp [replaceFirst, hs]

theorem splitFirst_some (pat s a b : Str) (h : splitFirst pat s = some (a, b)) :
    s = a ++ (pat ++ b) := by
  induction s generalizing a with
  | nil =>
    by_cases hp : pat = []
    · simp [splitFirst, hp] at h
      simp [h.1, h.2, hp]
    · simp [splitFirst, hp] at h
  | cons c cs ih =>
    unfold splitFirst at h
    by_cases hp : pat.isPrefixOf (c :: cs) = true
    · rw [if_pos hp] at h
      simp only [Option.some.injEq, Prod.mk.injEq] at h
      obtain ⟨rfl, rfl⟩ := h
      rw [List.isPrefixOf_iff_prefix] at hp
      obtain ⟨r, hr⟩ := hp
      rw [← hr]
      simp
    · rw [if_neg hp] at h
      simp only [Option.map_eq_some'] at h
      obtain ⟨⟨a1, b1⟩, h1, h2⟩ := h
      simp only [Prod.mk.injEq] at h2
      obtain ⟨rfl, rfl⟩ := h2
      rw [ih a1 h1]
      simp

/-- A pattern containing a character the string lacks is not found: `replace`
returns the string unchanged. -/
theorem replaceFirst_absent (s pat r : Str) (c : Char) (hp : c ∈ pat) (hs : c ∉ s) :
    replaceFirst s pat r = s := by
  cases h : splitFirst pat s with
  | none => simp [replaceFirst, h]
  | some ab =>
    obtain ⟨a, b⟩ := ab
    have := splitFirst_some pat s a b h
    exact absurd (by rw [this]; simp [hp]) hs

theorem trim_subset (s : Str) : ∀ c ∈ trim s, c ∈ s := by
  intro c hc
  unfold trim at hc
  rw [List.mem_reverse] at hc
  have h1 := (List.dropWhile_sublist _).subset hc
  rw [List.mem_reverse] at h1
  exact (List.dropWhile_sublist _).subset h1

theorem referencedId_token (inner : Str) (hok : innerOk inner) :
    referencedId (token inner) = trim inner := by
  have h1 : replaceFirst (token inner) ['$', '{'] [] = inner ++ ['}'] := by
    simp [replaceFirst, token, splitFirst, getSubstitution]
  have h2 : replaceFirst (inner ++ ['}']) ['}'] [] = inner := by
    have hs : splitFirst ['}'] (inner ++ (['}'] ++ [])) = some (inner, []) := by
      apply splitFirst_at _ _ _ (by simp)
      intro p1 p2 e hne
      cases p2 with
      | nil => exact absurd rfl hne
      | cons d p2 =>
        have hd : d ≠ '}' := (hok d (by simp [e])).1
        simp [List.isPrefixOf, hd]
        exact fun e => hd e.symm
    simp only [List.append_nil] at hs
    simp [replaceFirst, hs, getSubstitution]
  simp only [referencedId, h1, h2]

theorem referencedId_no_brace (inner : Str) (hok : innerOk inner) :
    '}' ∉ referencedId (token inner) := by
  rw [referencedId_token inner hok]
  intro h
  exact (hok _ (trim_subset inner _ h)).1 rfl

theorem missingMessage_no_brace (x : Str) (h : '}' ∉ x) : '}' ∉ missingMessage x := by
  unfold missingMessage
  by_cases hx : x = []
  · subst hx; decide
  · simp only [hx, if_false, List.mem_append, not_or]
    exact ⟨by decide, ⟨⟨by decide, h⟩, by decide⟩, by decide⟩

theorem circularMessage_no_brace : '}' ∉ circularMessage := by decide

theorem token_has_brace (inner : Str) : '}' ∈ token inner := by simp [token]

/-! ## The resolution loop: frame and invariant -/

theorem good_mkQuery (id body : Str) : Good (mkQuery id body) := by
  intro m h
  simp [mkQuery] at h

theorem stepReference_spec (maxLen i : Nat) (ids : List Str) (j : Nat) (qs qs1 : List Query)
    (q : Query) (inner : Str) (hq : qs.get? j = some q) (hok : innerOk inner)
    (h : stepReference maxLen i ids j qs (token inner) = some qs1) :
    ∃ q1, qs1 = qs.set j q1 ∧ q1.id = q.id ∧ (Good q → Good q1) ∧
      (i = maxIterations → q1.compileError ≠ none) := by
  unfold stepReference at h
  rw [hq] at h
  simp only at h
  by_cases hmem : referencedId (token inner) ∈ ids
  · rw [if_neg (not_not.2 hmem)] at h
    by_cases hi : i = maxIterations
    · rw [if_pos hi] at h
      simp only [Option.some.injEq] at h
      refine ⟨_, h.symm, rfl, ?_, fun _ => by simp⟩
      intro _ m hm
      simp only [Option.some.injEq] at hm
      subst hm
      exact ⟨rfl, circularMessage_no_brace⟩
    · rw [if_neg hi] at h
      cases hf : qs.find? (fun d => d.id = referencedId (token inner)) with
      | none => simp [hf] at h
      | some target =>
        simp only [hf, Option.map_eq_some'] at h
        obtain ⟨r, _, hr⟩ := h
        cases hc : checked maxLen (replaceFirst q.compiledQueryString (token inner) r) with
        | none =>
          simp only [hc] at hr
          refine ⟨_, hr.symm, rfl, ?_, fun e => absurd e hi⟩
          intro _ m hm
          simp only [Option.some.injEq] at hm
          subst hm
          exact ⟨rfl, circularMessage_no_brace⟩
        | some replaced =>
          simp only [hc] at hr
          refine ⟨_, hr.symm, rfl, ?_, fun e => absurd e hi⟩
          intro hg m hm
          simp only at hm
          obtain ⟨hb, hn⟩ := hg m hm
          refine ⟨?_, hn⟩
          simp only
          have hrep : replaceFirst q.compiledQueryString (token inner) r = q.compiledQueryString := by
            apply replaceFirst_absent _ _ _ '}' (token_has_brace inner)
            rw [hb]
            exact hn
          rw [hrep] at hc
          unfold checked at hc
          split at hc
          · simp only [Option.some.injEq] at hc
            rw [← hc, hb]
          · simp at hc
  · rw [if_pos hmem] at h
    simp only [Option.map_eq_some'] at h
    obtain ⟨msg, hmsg, hr⟩ := h
    have hmsg' : msg = missingMessage (referencedId (token inner)) := by
      unfold checked at hmsg
      split at hmsg
      · simp only [Option.some.injEq] at hmsg
        exact hmsg.symm
      · simp at hmsg
    refine ⟨_, hr.symm, rfl, ?_, fun _ => by simp⟩
    intro _ m hm
    simp only [Option.some.injEq] at hm
    subst hm
    refine ⟨rfl, ?_⟩
    rw [hmsg']
    exact missingMessage_no_brace _ (referencedId_no_brace inner hok)

theorem set_same (qs : List Query) (j : Nat) (q : Query) (hq : qs.get? j = some q) :
    qs.set j q = qs := by
  induction qs generalizing j with
  | nil => simp at hq
  | cons a qs ih =>
    cases j with
    | zero =>
      simp at hq
      simp [hq]
    | succ j =>
      simp at hq
      simp [ih j (by simpa using hq)]

theorem get?_set_self (qs : List Query) (j : Nat) (q q1 : Query) (hq : qs.get? j = some q) :
    (qs.set j q1).get? j = some q1 := by
  have hlt : j < qs.length := by
    rw [List.get?_eq_some] at hq
    exact hq.1
  simp [List.get?_eq_getElem?, List.getElem?_set, hlt]

theorem stepReferences_spec (maxLen i : Nat) (ids : List Str) (j : Nat) (refs : List Str) :
    ∀ (qs qs1 : List Query) (q : Query), qs.get? j = some q →
      (∀ r ∈ refs, ∃ inner, innerOk inner ∧ r = token inner) →
      stepReferences maxLen i ids j qs refs = some qs1 →
      ∃ q1, qs1 = qs.set j q1 ∧ q1.id = q.id ∧ (Good q → Good q1) ∧
        (i = maxIterations → refs ≠ [] → q1.compileError ≠ none) := by
  induction refs with
  | nil =>
    intro qs qs1 q hq _ h
    simp only [stepReferences, Option.some.injEq] at h
    subst h
    refine ⟨q, ?_, rfl, id, fun _ hne => absurd rfl hne⟩
    exact (set_same qs j q hq).symm
  | cons r rs ih =>
    intro qs qs1 q hq hrefs h
    obtain ⟨inner, hok, rfl⟩ := hrefs r (List.mem_cons_self _ _)
    unfold stepReferences at h
    cases hs : stepReference maxLen i ids j qs (token inner) with
    | none => simp [hs] at h
    | some qs2 =>
      simp only [hs] at h
      obtain ⟨q2, rfl, hid2, hg2, he2⟩ := stepReference_spec maxLen i ids j qs qs2 q inner hq hok hs
      have hq2 := get?_set_self qs j q q2 hq
      obtain ⟨q1, rfl, hid1, hg1, he1⟩ :=
        ih _ qs1 q2 hq2 (fun r hr => hrefs r (List.mem_cons_of_mem _ hr)) h
      refine ⟨q1, by simp, hid1.trans hid2, fun g => hg1 (hg2 g), ?_⟩
      intro hi _
      cases rs with
      | nil =>
        simp only [stepReferences, Option.some.injEq] at h
        have hq1 : ((qs.set j q2).set j q1).get? j = some q1 :=
          get?_set_self _ j q2 q1 hq2
        rw [← h, hq2] at hq1
        simp only [Option.some.injEq] at hq1
        rw [← hq1]
        exact he2 hi
      | cons r2 rs2 => exact he1 hi (by simp)

theorem good_settled_of_error (q : Query) (hg : Good q) (he : q.compileError ≠ none) :
    Settled q := by
  refine ⟨hg, ?_⟩
  cases h : q.compileError with
  | none => exact absurd h he
  | some m =>
    obtain ⟨hb, hn⟩ := hg m h
    rw [hb]
    exact matchRefs_no_brace m hn

/-- What `processQuery` does to the list: only index `j` may change. -/
theorem processQuery_spec (maxLen i : Nat) (ids : List Str) (j : Nat) (qs qs1 : List Query)
    (h : processQuery maxLen i ids j qs = some qs1) :
    (qs.get? j = none ∧ qs1 = qs) ∨
    ∃ q q1, qs.get? j = some q ∧ qs1 = qs.set j q1 ∧ q1.id = q.id ∧ (Good q → Good q1) ∧
      (i = maxIterations → Good q → Settled q1) := by
  unfold processQuery at h
  cases hq : qs.get? j with
  | none =>
    simp only [hq, Option.some.injEq] at h
    exact Or.inl ⟨rfl, h.symm⟩
  | some q =>
    right
    simp only [hq] at h
    cases hm : matchRefs q.compiledQueryString with
    | nil =>
      simp only [hm, Option.some.injEq] at h
      exact ⟨q, q, rfl, by rw [← h, set_same qs j q hq], rfl, id, fun _ hg => ⟨hg, hm⟩⟩
    | cons r rs =>
      simp only [hm] at h
      have hq0 : (setAt qs j { q with compiled := true }).get? j = some { q with compiled := true } :=
        get?_set_self qs j q _ hq
      have hrefs : ∀ x ∈ r :: rs, ∃ inner, innerOk inner ∧ x = token inner := by
        intro x hx
        rw [← hm] at hx
        exact mem_matchRefs _ _ hx
      obtain ⟨q1, h1, hid, hg, he⟩ :=
        stepReferences_spec maxLen i ids j (r :: rs) _ qs1 _ hq0 hrefs h
      have hgq : Good q → Good { q with compiled := true } := fun g m hm => g m hm
      refine ⟨q, q1, rfl, ?_, hid, fun g => hg (hgq g), ?_⟩
      · rw [h1]
        simp [setAt]
      · intro hi g
        exact good_settled_of_error q1 (hg (hgq g)) (he hi (by simp))

theorem get?_set_cases (qs : List Query) (j k : Nat) (q q1 x : Query)
    (hq : qs.get? j = some q) (hx : (qs.set j q1).get? k = some x) :
    (k = j ∧ x = q1) ∨ (k ≠ j ∧ qs.get? k = some x) := by
  by_cases hk : k = j
  · subst hk
    rw [get?_set_self qs k q q1 hq] at hx
    simp only [Option.some.injEq] at hx
    exact Or.inl ⟨rfl, hx.symm⟩
  · right
    refine ⟨hk, ?_⟩
    rw [List.get?_eq_getElem?] at hx ⊢
    rwa [List.getElem?_set_ne (Ne.symm hk)] at hx

theorem processQuery_allGood (maxLen i : Nat) (ids : List Str) (j : Nat) (qs qs1 : List Query)
    (h : processQuery maxLen i ids j qs = some qs1) (hg : AllGood qs) : AllGood qs1 := by
  rcases processQuery_spec maxLen i ids j qs qs1 h with ⟨_, rfl⟩ | ⟨q, q1, hq, rfl, _, hgq, _⟩
  · exact hg
  · intro k x hx
    rcases get?_set_cases qs j k q q1 x hq hx with ⟨_, rfl⟩ | ⟨_, hk⟩
    · exact hgq (hg j q hq)
    · exact hg k x hk

theorem processQuery_length (maxLen i : Nat) (ids : List Str) (j : Nat) (qs qs1 : List Query)
    (h : processQuery maxLen i ids j qs = some qs1) : qs1.length = qs.length := by
  rcases processQuery_spec maxLen i ids j qs qs1 h with ⟨_, rfl⟩ | ⟨q, q1, hq, rfl, _, _, _⟩
  · rfl
  · simp

theorem processQuery_settled (maxLen : Nat) (ids : List Str) (j : Nat) (qs qs1 : List Query)
    (h : processQuery maxLen maxIterations ids j qs = some qs1) (hg : AllGood qs) (k : Nat)
    (hk : k = j ∨ SettledAt qs k) : SettledAt qs1 k := by
  rcases processQuery_spec maxLen _ ids j qs qs1 h with ⟨hn, rfl⟩ | ⟨q, q1, hq, rfl, _, _, hs⟩
  · rcases hk with rfl | hk
    · intro x hx
      rw [hn] at hx
      exact absurd hx (by simp)
    · exact hk
  · intro x hx
    rcases get?_set_cases qs j k q q1 x hq hx with ⟨_, rfl⟩ | ⟨hne, hkx⟩
    · exact hs rfl (hg j q hq)
    · rcases hk with rfl | hk
      · exact absurd rfl hne
      · exact hk x hkx

theorem processFrom_allGood (maxLen i : Nat) (ids : List Str) (js : List Nat) :
    ∀ (qs qs1 : List Query), processFrom maxLen i ids js qs = some qs1 →
      AllGood qs → AllGood qs1 ∧ qs1.length = qs.length := by
  induction js with
  | nil =>
    intro qs qs1 h hg
    simp only [processFrom, Option.some.injEq] at h
    subst h
    exact ⟨hg, rfl⟩
  | cons j js ih =>
    intro qs qs1 h hg
    unfold processFrom at h
    cases hp : processQuery maxLen i ids j qs with
    | none => simp [hp] at h
    | some qs2 =>
      simp only [hp] at h
      obtain ⟨h1, h2⟩ := ih qs2 qs1 h (processQuery_allGood maxLen i ids j qs qs2 hp hg)
      exact ⟨h1, h2.trans (processQuery_length maxLen i ids j qs qs2 hp)⟩

theorem processFrom_settled (maxLen : Nat) (ids : List Str) (js : List Nat) :
    ∀ (qs qs1 : List Query), processFrom maxLen maxIterations ids js qs = some qs1 →
      AllGood qs → ∀ k, (k ∈ js ∨ SettledAt qs k) → SettledAt qs1 k := by
  induction js with
  | nil =>
    intro qs qs1 h _ k hk
    simp only [processFrom, Option.some.injEq] at h
    subst h
    rcases hk with hk | hk
    · simp at hk
    · exact hk
  | cons j js ih =>
    intro qs qs1 h hg k hk
    unfold processFrom at h
    cases hp : processQuery maxLen maxIterations ids j qs with
    | none => simp [hp] at h
    | some qs2 =>
      simp only [hp] at h
      apply ih qs2 qs1 h (processQuery_allGood maxLen _ ids j qs qs2 hp hg) k
      rcases hk with hk | hk
      · rcases List.mem_cons.1 hk with rfl | hk
        · exact Or.inr (processQuery_settled maxLen ids k qs qs2 hp hg k (Or.inl rfl))
        · exact Or.inl hk
      · exact Or.inr (processQuery_settled maxLen ids j qs qs2 hp hg k (Or.inr hk))

theorem onePass_allGood (maxLen i : Nat) (ids : List Str) (qs qs1 : List Query)
    (h : onePass maxLen i ids qs = some qs1) (hg : AllGood qs) :
    AllGood qs1 ∧ qs1.length = qs.length :=
  processFrom_allGood maxLen i ids _ qs qs1 h hg

theorem onePass_last_settled (maxLen : Nat) (ids : List Str) (qs qs1 : List Query)
    (h : onePass maxLen maxIterations ids qs = some qs1) (hg : AllGood qs) :
    ∀ q ∈ qs1, Settled q := by
  intro q hq
  obtain ⟨k, hk⟩ := List.get?_of_mem hq
  have hlen := (onePass_allGood maxLen _ ids qs qs1 h hg).2
  have hlt : k < qs.length := by
    rw [← hlen]
    rw [List.get?_eq_some] at hk
    exact hk.1
  exact processFrom_settled maxLen ids _ qs qs1 h hg k (Or.inl (List.mem_range.2 hlt)) q hk

theorem passesFrom_allGood (maxLen : Nat) (ids : List Str) (n : Nat) :
    ∀ (i : Nat) (qs qs1 : List Query), passesFrom maxLen ids n i qs = some qs1 →
      AllGood qs → AllGood qs1 := by
  induction n with
  | zero =>
    intro i qs qs1 h hg
    simp only [passesFrom, Option.some.injEq] at h
    subst h
    exact hg
  | succ n ih =>
    intro i qs qs1 h hg
    unfold passesFrom at h
    cases hp : onePass maxLen i ids qs with
    | none => simp [hp] at h
    | some qs2 =>
      simp only [hp] at h
      exact ih (i + 1) qs2 qs1 h (onePass_allGood maxLen i ids qs qs2 hp hg).1

/-- The passes split: `n` passes and then pass `i + n`. -/
theorem passesFrom_succ (maxLen : Nat) (ids : List Str) (n : Nat) :
    ∀ (i : Nat) (qs : List Query), passesFrom maxLen ids (n + 1) i qs =
      (passesFrom maxLen ids n i qs).bind (onePass maxLen (i + n) ids) := by
  induction n with
  | zero =>
    intro i qs
    simp only [passesFrom, Option.bind, Nat.add_zero]
    cases onePass maxLen i ids qs <;> rfl
  | succ n ih =>
    intro i qs
    rw [passesFrom]
    cases hp : onePass maxLen i ids qs with
    | none => simp [passesFrom, hp]
    | some qs2 =>
      simp only
      rw [ih (i + 1) qs2]
      conv => rhs; rw [passesFrom]
      simp only [hp]
      have : i + 1 + n = i + (n + 1) := by omega
      rw [this]

theorem allGood_map_mkQuery (blocks : List (Str × Str)) :
    AllGood (blocks.map (fun b => mkQuery b.1 b.2)) := by
  intro k q hq
  have hm := List.get?_mem hq
  rw [List.mem_map] at hm
  obtain ⟨b, _, rfl⟩ := hm
  exact good_mkQuery _ _

/-- After the whole loop every query is settled. -/
theorem resolve_settled (maxLen : Nat) (qs qs1 : List Query) (hg : AllGood qs)
    (h : resolve maxLen qs = some qs1) : ∀ q ∈ qs1, Settled q := by
  unfold resolve afterPasses at h
  rw [passesFrom_succ] at h
  cases hp : passesFrom maxLen (qs.map (·.id)) maxIterations 0 qs with
  | none => simp [hp] at h
  | some qs2 =>
    simp only [hp, Option.bind, Nat.zero_add] at h
    exact onePass_last_settled maxLen _ qs2 qs1 h (passesFrom_allGood maxLen _ _ 0 qs qs2 hp hg)

/-! ## Computing single steps -/

theorem literalText_paren (s : Str) (h : literalText s = true) : literalText (paren s) = true :=
  avoids_wrap _ (by decide) s h

theorem checked_fits (maxLen : Nat) (s : Str) (h : s.length ≤ maxLen) :
    checked maxLen s = some s := by
  simp [checked, h]

/-- A substitution step that succeeds. -/
theorem stepReference_subst (maxLen i : Nat) (ids : List Str) (j : Nat) (qs : List Query)
    (q target : Query) (pre inner post : Str)
    (hq : qs.get? j = some q)
    (hbody : q.compiledQueryString = pre ++ (token inner ++ post))
    (hno : noMatchIn pre (token inner ++ post)) (hok : innerOk inner)
    (hmem : trim inner ∈ ids) (hi : i ≠ maxIterations)
    (hfind : qs.find? (fun d => d.id = trim inner) = some target)
    (hlit : literalText target.compiledQueryString = true)
    (hfit : (pre ++ paren target.compiledQueryString ++ post).length ≤ maxLen) :
    stepReference maxLen i ids j qs (token inner) =
      some (qs.set j { q with
        compiledQueryString := pre ++ paren target.compiledQueryString ++ post }) := by
  have hrep : replaceFirst q.compiledQueryString (token inner) (paren target.compiledQueryString)
      = pre ++ paren target.compiledQueryString ++ post := by
    rw [hbody, replaceFirst_token pre inner post _ hok hno,
      getSubstitution_literal _ _ _ _ (literalText_paren _ hlit)]
  have hfit1 : (paren target.compiledQueryString).length ≤ maxLen := by
    simp only [List.length_append] at hfit
    omega
  have hp : "(".toList ++ target.compiledQueryString ++ ")".toList
      = paren target.compiledQueryString := by
    simp [paren]
  unfold stepReference
  rw [hq]
  simp only [referencedId_token inner hok, hmem, not_true_eq_false, if_false, if_neg hi, hfind, hp,
    checked_fits maxLen _ hfit1, Option.map_some', hrep, checked_fits maxLen _ hfit, setAt]

/-- A step on a reference to an id that no query has. -/
theorem stepReference_missing (maxLen i : Nat) (ids : List Str) (j : Nat) (qs : List Query)
    (q : Query) (inner : Str) (hq : qs.get? j = some q) (hok : innerOk inner)
    (hmem : trim inner ∉ ids) (hfit : (missingMessage (trim inner)).length ≤ maxLen) :
    stepReference maxLen i ids j qs (token inner) =
      some (qs.set j { q with compileError := some (missingMessage (trim inner)),
                              compiledQueryString := missingMessage (trim inner) }) := by
  unfold stepReference
  rw [hq]
  simp only [referencedId_token inner hok, hmem, not_false_eq_true, if_true,
    checked_fits maxLen _ hfit, Option.map_some', setAt]

theorem processQuery_noRefs (maxLen i : Nat) (ids : List Str) (j : Nat) (qs : List Query)
    (h : ∀ q, qs.get? j = some q → matchRefs q.compiledQueryString = []) :
    processQuery maxLen i ids j qs = some qs := by
  unfold processQuery
  cases hq : qs.get? j with
  | none => rfl
  | some q => simp only [h q hq]

/-- Processing a query with a single reference token. -/
theorem processQuery_single (maxLen i : Nat) (ids : List Str) (j : Nat) (qs : List Query)
    (q : Query) (inner : Str) (hq : qs.get? j = some q)
    (hrefs : matchRefs q.compiledQueryString = [token inner]) :
    processQuery maxLen i ids j qs =
      stepReference maxLen i ids j (qs.set j { q with compiled := true }) (token inner) := by
  unfold processQuery
  rw [hq]
  simp only [hrefs, stepReferences, setAt]
  cases stepReference maxLen i ids j (qs.set j { q with compiled := true }) (token inner) <;> rfl

/-- Processing a query whose single reference is substituted. -/
theorem processQuery_subst (maxLen i : Nat) (ids : List Str) (j : Nat) (qs : List Query)
    (q target : Query) (pre inner post : Str)
    (hq : qs.get? j = some q)
    (hbody : q.compiledQueryString = pre ++ (token inner ++ post))
    (hno : noMatchIn pre (token inner ++ post)) (hok : innerOk inner)
    (hpost : matchRefs post = [])
    (hmem : trim inner ∈ ids) (hi : i ≠ maxIterations)
    (hfind : (qs.set j (markCompiled q)).find? (fun d => d.id = trim inner) = some target)
    (hlit : literalText target.compiledQueryString = true)
    (hfit : (pre ++ paren target.compiledQueryString ++ post).length ≤ maxLen) :
    processQuery maxLen i ids j qs =
      some (qs.set j (withBody (markCompiled q)
        (pre ++ paren target.compiledQueryString ++ post))) := by
  have hrefs : matchRefs q.compiledQueryString = [token inner] := by
    rw [hbody, matchRefs_append_of_noMatchIn pre _ hno, matchRefs_token inner post hok, hpost]
  rw [processQuery_single maxLen i ids j qs q inner hq hrefs]
  show stepReference maxLen i ids j (qs.set j (markCompiled q)) (token inner) = _
  rw [stepReference_subst maxLen i ids j _ (markCompiled q) target pre inner post
    (get?_set_self qs j q _ hq) hbody hno hok hmem hi hfind hlit hfit]
  simp [withBody, markCompiled]

/-- Processing a query whose single reference names no query. -/
theorem processQuery_missing (maxLen i : Nat) (ids : List Str) (j : Nat) (qs : List Query)
    (q : Query) (inner : Str) (hq : qs.get? j = some q)
    (hrefs : matchRefs q.compiledQueryString = [token inner]) (hok : innerOk inner)
    (hmem : trim inner ∉ ids) (hfit : (missingMessage (trim inner)).length ≤ maxLen) :
    processQuery maxLen i ids j qs =
      some (qs.set j (withError (markCompiled q) (missingMessage (trim inner)))) := by
  rw [processQuery_single maxLen i ids j qs q inner hq hrefs]
  show stepReference maxLen i ids j (qs.set j (markCompiled q)) (token inner) = _
  rw [stepReference_missing maxLen i ids j _ (markCompiled q) inner
    (get?_set_self qs j q _ hq) hok hmem hfit]
  simp [withError, markCompiled]

theorem processFrom_noRefs (maxLen i : Nat) (ids : List Str) (js : List Nat) (qs : List Query)
    (h : NoRefs qs) : processFrom maxLen i ids js qs = some qs := by
  induction js with
  | nil => rfl
  | cons j js ih =>
    unfold processFrom
    rw [processQuery_noRefs maxLen i ids j qs (fun q hq => h q (List.get?_mem hq))]
    exact ih

theorem passesFrom_noRefs (maxLen : Nat) (ids : List Str) (n : Nat) (qs : List Query)
    (h : NoRefs qs) : ∀ i, passesFrom maxLen ids n i qs = some qs := by
  induction n with
  | zero => intro i; rfl
  | succ n ih =>
    intro i
    unfold passesFrom
    unfold onePass
    rw [processFrom_noRefs maxLen i ids _ qs h]
    exact ih (i + 1)

theorem passesFrom_step (maxLen : Nat) (ids : List Str) (n i : Nat) (qs qs1 : List Query)
    (h : onePass maxLen i ids qs = some qs1) :
    passesFrom maxLen ids (n + 1) i qs = passesFrom maxLen ids n (i + 1) qs1 := by
  rw [passesFrom, h]

theorem onePass_two (maxLen i : Nat) (ids : List Str) (x y : Query) (qs1 qs2 : List Query)
    (h0 : processQuery maxLen i ids 0 [x, y] = some qs1)
    (h1 : processQuery maxLen i ids 1 qs1 = some qs2) :
    onePass maxLen i ids [x, y] = some qs2 := by
  show processFrom maxLen i ids [0, 1] [x, y] = some qs2
  simp only [processFrom, h0, h1]

/-! ## Splicing plain text in place of a token -/

theorem matchAt_dollar_other (d : Char) (s : Str) (hd : d ≠ '{') :
    matchAt ('$' :: d :: s) = none := by
  unfold matchAt
  split
  · rename_i heq
    simp at heq
    exact absurd heq.1 hd
  · rfl

theorem matchAt_dollar_brace (s : Str) :
    matchAt ('$' :: '{' :: s) = (scanBody s).map (fun inner => '$' :: '{' :: (inner ++ ['}'])) := rfl

theorem scanBody_stuck (p inner post z : Str) (hok : innerOk inner)
    (h : scanBody (p ++ (token inner ++ post)) = none) : scanBody (p ++ z) = none := by
  induction p with
  | nil =>
    have hok2 : innerOk ('$' :: '{' :: inner) := by
      intro c hc
      simp only [List.mem_cons] at hc
      rcases hc with rfl | rfl | hc
      · exact ⟨by decide, by decide⟩
      · exact ⟨by decide, by decide⟩
      · exact hok c hc
    have := scanBody_inner ('$' :: '{' :: inner) post hok2
    simp only [List.nil_append, token, List.cons_append, List.append_assoc,
      List.singleton_append] at h this
    rw [this] at h
    exact absurd h (by simp)
  | cons c p ih =>
    simp only [List.cons_append] at h ⊢
    unfold scanBody at h ⊢
    by_cases hc : c = '}'
    · simp [hc] at h
    · by_cases hl : isLineTerminator c = true
      · simp [hc, hl]
      · simp only [hc, hl, if_false, Option.map_eq_none', Bool.false_eq_true] at h ⊢
        exact ih h

theorem noMatchIn_replace (pre inner post z : Str) (hok : innerOk inner)
    (hz : ∀ c, z.head? = some c → c ≠ '{')
    (h : noMatchIn pre (token inner ++ post)) : noMatchIn pre z := by
  intro p1 p2 e hne
  have h0 := h p1 p2 e hne
  cases p2 with
  | nil => exact absurd rfl hne
  | cons c p2 =>
    by_cases hc : c = '$'
    · subst hc
      cases p2 with
      | nil =>
        cases z with
        | nil => rfl
        | cons d z => exact matchAt_dollar_other d z (hz d rfl)
      | cons d p2 =>
        by_cases hd : d = '{'
        · subst hd
          simp only [List.cons_append] at h0 ⊢
          rw [matchAt_dollar_brace] at h0 ⊢
          simp only [Option.map_eq_none'] at h0 ⊢
          exact scanBody_stuck p2 inner post z hok h0
        · exact matchAt_dollar_other d _ hd
    · exact matchAt_not_dollar c _ hc

theorem noMatchIn_plain (s z : Str) (hs : plainText s = true)
    (hz : ∀ c, z.head? = some c → c ≠ '{') : noMatchIn s z := by
  intro p1 p2 e hne
  have hp2 : plainText p2 = true := avoids_suffix _ p1 p2 (e ▸ hs)
  cases p2 with
  | nil => exact absurd rfl hne
  | cons c p2 =>
    by_cases hc : c = '$'
    · subst hc
      cases p2 with
      | nil =>
        cases z with
        | nil => rfl
        | cons d z => exact matchAt_dollar_other d z (hz d rfl)
      | cons d p2 =>
        unfold plainText at hp2
        rw [avoids_dollar] at hp2
        simp only [Bool.and_eq_true, Bool.not_eq_true', Bool.or_eq_false_iff,
          decide_eq_false_iff_not] at hp2
        exact matchAt_dollar_other d _ hp2.1.1
    · exact matchAt_not_dollar c _ hc

theorem plainText_paren (s : Str) (h : plainText s = true) : plainText (paren s) = true :=
  avoids_wrap _ (by decide) s h

theorem matchRefs_plain (s : Str) (h : plainText s = true) : matchRefs s = [] := by
  simpa using matchRefs_append_of_noMatchIn s [] (noMatchIn_plain s [] h (by simp))

/-- After plain text has taken the place of the only token, no token is left. -/
theorem matchRefs_spliced (pre inner post a : Str) (hok : innerOk inner)
    (hno : noMatchIn pre (token inner ++ post)) (hpost : matchRefs post = [])
    (ha : plainText a = true) : matchRefs (pre ++ paren a ++ post) = [] := by
  have h1 : noMatchIn pre (paren a ++ post) :=
    noMatchIn_replace pre inner post _ hok (by simp [paren]) hno
  have h2 : noMatchIn (paren a) post := by
    intro p1 p2 e hne
    have hp := plainText_paren a ha
    -- the last character of `paren a` is a parenthesis, so `p2` ends with it
    have hsuf : plainText p2 = true := avoids_suffix _ p1 p2 (e ▸ hp)
    cases p2 with
    | nil => exact absurd rfl hne
    | cons c p2 =>
      by_cases hc : c = '$'
      · subst hc
        cases p2 with
        | nil =>
          have := congrArg List.reverse e
          simp [paren] at this
        | cons d p2 =>
          unfold plainText at hsuf
          rw [avoids_dollar] at hsuf
          simp only [Bool.and_eq_true, Bool.not_eq_true', Bool.or_eq_false_iff,
            decide_eq_false_iff_not] at hsuf
          exact matchAt_dollar_other d _ hsuf.1.1
      · exact matchAt_not_dollar c _ hc
  rw [List.append_assoc, matchRefs_append_of_noMatchIn pre _ h1,
    matchRefs_append_of_noMatchIn _ _ h2, hpost]

theorem spliceFirst_token (pre inner post r : Str) (hok : innerOk inner)
    (hno : noMatchIn pre (token inner ++ post)) :
    spliceFirst (pre ++ (token inner ++ post)) (token inner) r = pre ++ r ++ post := by
  have hs : splitFirst (token inner) (pre ++ (token inner ++ post)) = some (pre, post) := by
    apply splitFirst_at _ _ _ (by simp [token])
    intro p1 p2 e hne
    cases hp : (token inner).isPrefixOf (p2 ++ (token inner ++ post)) with
    | false => rfl
    | true =>
      have h1 := matchAt_of_prefix inner _ hok hp
      rw [hno p1 p2 e hne] at h1
      exact absurd h1 (by simp)
  simp [spliceFirst, hs]

/-! ## Entries that stay put -/

theorem processQuery_other (maxLen i : Nat) (ids : List Str) (j k : Nat) (qs qs1 : List Query)
    (h : processQuery maxLen i ids j qs = some qs1) (hk : k ≠ j) : qs1.get? k = qs.get? k := by
  rcases processQuery_spec maxLen i ids j qs qs1 h with ⟨_, rfl⟩ | ⟨q, q1, _, rfl, _, _, _⟩
  · rfl
  · rw [List.get?_eq_getElem?, List.get?_eq_getElem?, List.getElem?_set_ne (Ne.symm hk)]

/-- A query without reference token is left alone by every step. -/
theorem processQuery_keeps (maxLen i : Nat) (ids : List Str) (j k : Nat) (qs qs1 : List Query)
    (q : Query) (h : processQuery maxLen i ids j qs = some qs1) (hq : qs.get? k = some q)
    (hr : matchRefs q.compiledQueryString = []) : qs1.get? k = some q := by
  by_cases hk : k = j
  · subst hk
    rw [processQuery_noRefs maxLen i ids k qs (fun q' hq' => by
      rw [hq] at hq'
      simp only [Option.some.injEq] at hq'
      rw [← hq']
      exact hr)] at h
    simp only [Option.some.injEq] at h
    rw [← h]
    exact hq
  · rw [processQuery_other maxLen i ids j k qs qs1 h hk]
    exact hq

theorem processFrom_keeps (maxLen i : Nat) (ids : List Str) (k : Nat) (q : Query)
    (hr : matchRefs q.compiledQueryString = []) (js : List Nat) :
    ∀ (qs qs1 : List Query), processFrom maxLen i ids js qs = some qs1 →
      qs.get? k = some q → qs1.get? k = some q := by
  induction js with
  | nil =>
    intro qs qs1 h hq
    simp only [processFrom, Option.some.injEq] at h
    rw [← h]
    exact hq
  | cons j js ih =>
    intro qs qs1 h hq
    unfold processFrom at h
    cases hp : processQuery maxLen i ids j qs with
    | none => simp [hp] at h
    | some qs2 =>
      simp only [hp] at h
      exact ih qs2 qs1 h (processQuery_keeps maxLen i ids j k qs qs2 q hp hq hr)

theorem passesFrom_keeps (maxLen : Nat) (ids : List Str) (k : Nat) (q : Query)
    (hr : matchRefs q.compiledQueryString = []) (n : Nat) :
    ∀ (i : Nat) (qs qs1 : List Query), passesFrom maxLen ids n i qs = some qs1 →
      qs.get? k = some q → qs1.get? k = some q := by
  induction n with
  | zero =>
    intro i qs qs1 h hq
    simp only [passesFrom, Option.some.injEq] at h
    rw [← h]
    exact hq
  | succ n ih =>
    intro i qs qs1 h hq
    unfold passesFrom at h
    cases hp : onePass maxLen i ids qs with
    | none => simp [hp] at h
    | some qs2 =>
      simp only [hp] at h
      exact ih (i + 1) qs2 qs1 h (processFrom_keeps maxLen i ids k q hr _ qs qs2 hp hq)

/-- When the step on a reference to an unknown id returns, it has set the error. -/
theorem processQuery_missing_inv (maxLen i : Nat) (ids : List Str) (j : Nat)
    (qs qs1 : List Query) (q : Query) (inner : Str) (hq : qs.get? j = some q)
    (hrefs : matchRefs q.compiledQueryString = [token inner]) (hok : innerOk inner)
    (hmem : trim inner ∉ ids) (h : processQuery maxLen i ids j qs = some qs1) :
    qs1 = qs.set j (withError (markCompiled q) (missingMessage (trim inner))) := by
  by_cases hfit : (missingMessage (trim inner)).length ≤ maxLen
  · rw [processQuery_missing maxLen i ids j qs q inner hq hrefs hok hmem hfit] at h
    simp only [Option.some.injEq] at h
    exact h.symm
  · rw [processQuery_single maxLen i ids j qs q inner hq hrefs] at h
    unfold stepReference at h
    rw [get?_set_self qs j q _ hq] at h
    simp [referencedId_token inner hok, hmem, checked, hfit] at h

theorem processFrom_missing (maxLen i : Nat) (ids : List Str) (j : Nat) (q : Query)
    (inner : Str) (hrefs : matchRefs q.compiledQueryString = [token inner]) (hok : innerOk inner)
    (hmem : trim inner ∉ ids) (js : List Nat) :
    ∀ (qs qs1 : List Query), processFrom maxLen i ids js qs = some qs1 →
      qs.get? j = some q →
      (j ∈ js → qs1.get? j = some (withError (markCompiled q) (missingMessage (trim inner)))) ∧
      (j ∉ js → qs1.get? j = some q) := by
  have hbr : '}' ∉ missingMessage (trim inner) := by
    have := referencedId_no_brace inner hok
    rw [referencedId_token inner hok] at this
    exact missingMessage_no_brace _ this
  induction js with
  | nil =>
    intro qs qs1 h hq
    simp only [processFrom, Option.some.injEq] at h
    rw [← h]
    exact ⟨fun hj => absurd hj (by simp), fun _ => hq⟩
  | cons j1 js ih =>
    intro qs qs1 h hq
    unfold processFrom at h
    cases hp : processQuery maxLen i ids j1 qs with
    | none => simp [hp] at h
    | some qs2 =>
      simp only [hp] at h
      by_cases hj : j1 = j
      · subst hj
        have h2 := processQuery_missing_inv maxLen i ids j1 qs qs2 q inner hq hrefs hok hmem hp
        have hq2 : qs2.get? j1 =
            some (withError (markCompiled q) (missingMessage (trim inner))) := by
          rw [h2]
          exact get?_set_self qs j1 q _ hq
        have hfinal := processFrom_keeps maxLen i ids j1 _
          (matchRefs_no_brace _ hbr) js qs2 qs1 h hq2
        exact ⟨fun _ => hfinal, fun hn => absurd (List.mem_cons_self _ _) hn⟩
      · have hq2 : qs2.get? j = some q := by
          rw [processQuery_other maxLen i ids j1 j qs qs2 hp (Ne.symm hj)]
          exact hq
        obtain ⟨h1, h2⟩ := ih qs2 qs1 h hq2
        refine ⟨fun hm => ?_, fun hn => ?_⟩
        · rcases List.mem_cons.1 hm with e | hm
          · exact absurd e.symm hj
          · exact h1 hm
        · exact h2 (fun hm => hn (List.mem_cons_of_mem _ hm))

/-! ## Nested parentheses -/

theorem wrapN_zero (s : Str) : wrapN 0 s = s := by simp [wrapN]

theorem replicate_snoc (p : Nat) (c : Char) :
    List.replicate p c ++ [c] = c :: List.replicate p c := by
  rw [← List.replicate_succ, List.replicate_succ']

theorem paren_wrapN (p : Nat) (s : Str) : paren (wrapN p s) = wrapN (p + 1) s := by
  simp only [paren, wrapN, List.replicate_succ, List.cons_append, List.append_assoc]
  rw [replicate_snoc]

theorem wrapN_succ (p : Nat) (s : Str) : wrapN (p + 1) s = wrapN p (paren s) := by
  simp only [paren, wrapN, List.replicate_succ, List.cons_append, List.append_assoc]
  have h : ∀ t : Str, List.replicate p '(' ++ '(' :: t = '(' :: (List.replicate p '(' ++ t) := by
    intro t
    have := congrArg (· ++ t) (replicate_snoc p '(')
    simpa using this
  rw [h]
  simp

theorem wrapN_wrapN (p r : Nat) (s : Str) : wrapN p (wrapN r s) = wrapN (p + r) s := by
  induction r generalizing s with
  | zero => simp [wrapN_zero]
  | succ r ih =>
    rw [wrapN_succ, ih, ← Nat.add_assoc, wrapN_succ]

theorem wrapN_length (p : Nat) (s : Str) : (wrapN p s).length = 2 * p + s.length := by
  simp [wrapN]
  omega

theorem wrapN_eq_append (p : Nat) (s : Str) :
    wrapN p s = List.replicate p '(' ++ (s ++ List.replicate p ')') := rfl

theorem splice_wrapN (p r : Nat) (s : Str) :
    List.replicate p '(' ++ paren (wrapN r s) ++ List.replicate p ')' = wrapN (p + r + 1) s := by
  rw [paren_wrapN, List.append_assoc, ← wrapN_eq_append, wrapN_wrapN, Nat.add_assoc]

theorem literalText_wrapN (p : Nat) (s : Str) (h : literalText s = true) :
    literalText (wrapN p s) = true := by
  induction p with
  | zero => simpa [wrapN_zero] using h
  | succ p ih =>
    rw [← paren_wrapN]
    exact literalText_paren _ ih

theorem literalText_token (id : Str) (h : literalText id = true) :
    literalText (token id) = true := by
  unfold literalText token
  rw [avoids_dollar, avoids_cons_ne _ _ _ (by decide)]
  simp only [specialAfterDollar, Bool.and_eq_true, Bool.not_eq_true']
  refine ⟨by decide, ?_⟩
  apply avoids_append _ id ['}'] h rfl
  intro c hc
  simp at hc
  rw [← hc]
  decide

theorem noDollar_replicate (p : Nat) (c : Char) (hc : c ≠ '$') : '$' ∉ List.replicate p c := by
  intro h
  exact hc (List.eq_of_mem_replicate h).symm

theorem matchRefs_replicate (p : Nat) : matchRefs (List.replicate p ')') = [] :=
  matchRefs_no_dollar _ (noDollar_replicate p ')' (by decide))

theorem noMatchIn_replicate (p : Nat) (z : Str) : noMatchIn (List.replicate p '(') z :=
  noMatchIn_of_no_dollar _ _ (noDollar_replicate p '(' (by decide))

/-- Processing a query whose body is a wrapped token naming an existing query. -/
theorem processQuery_wrapped (maxLen i : Nat) (ids : List Str) (j : Nat) (qs : List Query)
    (q target : Query) (p r : Nat) (id tid : Str)
    (hq : qs.get? j = some q)
    (hbody : q.compiledQueryString = wrapN p (token id))
    (hid : Referable id) (hmem : id ∈ ids) (hi : i ≠ maxIterations)
    (hfind : (qs.set j (markCompiled q)).find? (fun d => d.id = id) = some target)
    (htarget : target.compiledQueryString = wrapN r tid)
    (hlit : literalText tid = true)
    (hfit : 2 * (p + r + 1) + tid.length ≤ maxLen) :
    processQuery maxLen i ids j qs =
      some (qs.set j (withBody (markCompiled q) (wrapN (p + r + 1) tid))) := by
  have h := processQuery_subst maxLen i ids j qs q target (List.replicate p '(') id
    (List.replicate p ')') hq hbody (noMatchIn_replicate p _) hid.1 (matchRefs_replicate p)
    (by rw [hid.2]; exact hmem) hi (by rw [hid.2]; exact hfind)
    (by rw [htarget]; exact literalText_wrapN r tid hlit)
    (by rw [htarget, splice_wrapN, wrapN_length]; exact hfit)
  rw [h, htarget, splice_wrapN]

/-! ## Two queries that reference each other -/

theorem afterPasses_succ (maxLen n : Nat) (qs : List Query) :
    afterPasses maxLen (n + 1) qs =
      (afterPasses maxLen n qs).bind (onePass maxLen n (qs.map (·.id))) := by
  unfold afterPasses
  rw [passesFrom_succ, Nat.zero_add]

theorem afterPasses_step (maxLen n : Nat) (ids : List Str) (qs qs1 qs2 : List Query)
    (hids : qs.map (·.id) = ids)
    (h1 : afterPasses maxLen n qs = some qs1) (h2 : onePass maxLen n ids qs1 = some qs2) :
    afterPasses maxLen (n + 1) qs = some qs2 := by
  rw [afterPasses_succ, h1, hids]
  exact h2

theorem resolve_step (maxLen : Nat) (ids : List Str) (qs qs1 qs2 : List Query)
    (hids : qs.map (·.id) = ids)
    (h1 : afterPasses maxLen maxIterations qs = some qs1)
    (h2 : onePass maxLen maxIterations ids qs1 = some qs2) :
    resolve maxLen qs = some qs2 :=
  afterPasses_step maxLen maxIterations ids qs qs1 qs2 hids h1 h2

theorem processFrom_length (maxLen i : Nat) (ids : List Str) (js : List Nat) :
    ∀ (qs qs1 : List Query), processFrom maxLen i ids js qs = some qs1 →
      qs1.length = qs.length := by
  induction js with
  | nil =>
    intro qs qs1 h
    simp only [processFrom, Option.some.injEq] at h
    rw [h]
  | cons j js ih =>
    intro qs qs1 h
    unfold processFrom at h
    cases hp : processQuery maxLen i ids j qs with
    | none => simp [hp] at h
    | some qs2 =>
      simp only [hp] at h
      rw [ih qs2 qs1 h, processQuery_length maxLen i ids j qs qs2 hp]

theorem passesFrom_length (maxLen : Nat) (ids : List Str) (n : Nat) :
    ∀ (i : Nat) (qs qs1 : List Query), passesFrom maxLen ids n i qs = some qs1 →
      qs1.length = qs.length := by
  induction n with
  | zero =>
    intro i qs qs1 h
    simp only [passesFrom, Option.some.injEq] at h
    rw [h]
  | succ n ih =>
    intro i qs qs1 h
    unfold passesFrom at h
    cases hp : onePass maxLen i ids qs with
    | none => simp [hp] at h
    | some qs2 =>
      simp only [hp] at h
      rw [ih (i + 1) qs2 qs1 h, processFrom_length maxLen i ids _ qs qs2 hp]

theorem resolve_length (maxLen : Nat) (qs qs1 : List Query) (h : resolve maxLen qs = some qs1) :
    qs1.length = qs.length :=
  passesFrom_length maxLen _ _ 0 qs qs1 h

theorem resolve_nil (maxLen : Nat) : resolve maxLen [] = some [] :=
  passesFrom_noRefs maxLen _ _ [] (fun q hq => absurd hq (by simp)) 0

theorem update_eq (env : Env) (nodes : List CodeNode) (filename : Str) (fs : CacheState)
    (h : Digest) (qs : List Query) (hroute : getRouteHash env filename = some h)
    (hres : resolve env.maxLen (extractedOf env nodes) = some qs) :
    updateExtractedQueriesDir env nodes filename fs =
      if qs.length = 0 then some ([], removeDir fs h)
      else if fileExists fs h (FileName.json (env.md5 (env.stringify qs))) then
        some ((extractedOf env nodes).map (·.id), fs)
      else some ((extractedOf env nodes).map (·.id),
        writeOnly fs h (FileName.json (env.md5 (env.stringify qs))) qs) := by
  unfold updateExtractedQueriesDir
  rw [hroute]
  simp only [hres]

theorem fileExists_writeOnly (fs : CacheState) (h : Digest) (name : FileName)
    (qs : List Query) : fileExists (writeOnly fs h name qs) h name = true := by
  simp [fileExists, writeOnly]

theorem fileExists_single (fs : CacheState) (h : Digest) (name : FileName)
    (hex : fileExists fs h name = true) (hone : ∀ dir, fs h = some dir → dir.length ≤ 1) :
    ∃ content, fs h = some [(name, content)] := by
  unfold fileExists at hex
  cases hd : fs h with
  | none => simp [hd] at hex
  | some dir =>
    have hl := hone dir hd
    simp only [hd, List.any_eq_true, decide_eq_true_eq] at hex
    obtain ⟨f, hf, hname⟩ := hex
    match dir, hl, hf with
    | [g], _, hf =>
      simp only [List.mem_singleton] at hf
      subst hf
      exact ⟨f.2, by rw [← hname]⟩

/-- A document without named queries: the directory goes, the others stay. -/
theorem update_empty (env : Env) (nodes : List CodeNode) (filename : Str) (fs : CacheState)
    (h : Digest) (hroute : getRouteHash env filename = some h)
    (hnone : extractedOf env nodes = []) :
    updateExtractedQueriesDir env nodes filename fs = some ([], removeDir fs h) := by
  have hres : resolve env.maxLen (extractedOf env nodes) = some [] := by
    rw [hnone]
    exact resolve_nil env.maxLen
  rw [update_eq env nodes filename fs h [] hroute hres]
  simp

theorem resolve_ne_nil (maxLen : Nat) (qs qs1 : List Query) (h : resolve maxLen qs = some qs1)
    (hne : qs ≠ []) : qs1.length ≠ 0 := by
  rw [resolve_length maxLen qs qs1 h]
  intro h0
  exact hne (List.length_eq_zero.1 h0)

/-- One run on a document with named queries: afterwards the artifact exists,
alone if the directory held at most one entry, and other directories are as
before. -/
theorem update_once (env : Env) (nodes : List CodeNode) (filename : Str) (fs : CacheState)
    (h : Digest) (qs : List Query) (hroute : getRouteHash env filename = some h)
    (hres : resolve env.maxLen (extractedOf env nodes) = some qs)
    (hne : extractedOf env nodes ≠ []) :
    ∃ fs1, updateExtractedQueriesDir env nodes filename fs =
        some ((extractedOf env nodes).map (·.id), fs1) ∧
      fileExists fs1 h (FileName.json (env.md5 (env.stringify qs))) = true ∧
      ((∀ dir, fs h = some dir → dir.length ≤ 1) →
        ∃ content, fs1 h = some [(FileName.json (env.md5 (env.stringify qs)), content)]) ∧
      (fileExists fs h (FileName.json (env.md5 (env.stringify qs))) = false →
        fs1 h = some [(FileName.json (env.md5 (env.stringify qs)), qs)]) ∧
      (∀ h1, h1 ≠ h → fs1 h1 = fs h1) := by
  have hlen := resolve_ne_nil env.maxLen _ qs hres hne
  rw [update_eq env nodes filename fs h qs hroute hres, if_neg hlen]
  by_cases hex : fileExists fs h (FileName.json (env.md5 (env.stringify qs))) = true
  · rw [if_pos hex]
    exact ⟨fs, rfl, hex, fun hone => fileExists_single fs h _ hex hone,
      fun hf => absurd hex (by simp [hf]), fun _ _ => rfl⟩
  · rw [if_neg hex]
    refine ⟨_, rfl, fileExists_writeOnly fs h _ qs, fun _ => ⟨qs, by simp [writeOnly]⟩,
      fun _ => by simp [writeOnly], fun h1 hh => by simp [writeOnly, Function.update, hh]⟩

theorem update_hit (env : Env) (nodes : List CodeNode) (filename : Str) (fs : CacheState)
    (h : Digest) (qs : List Query) (hroute : getRouteHash env filename = some h)
    (hres : resolve env.maxLen (extractedOf env nodes) = some qs)
    (hne : extractedOf env nodes ≠ [])
    (hex : fileExists fs h (FileName.json (env.md5 (env.stringify qs))) = true) :
    updateExtractedQueriesDir env nodes filename fs =
      some ((extractedOf env nodes).map (·.id), fs) := by
  have hlen := resolve_ne_nil env.maxLen _ qs hres hne
  rw [update_eq env nodes filename fs h qs hroute hres, if_neg hlen, if_pos hex]

/-! ## Chains of references -/

theorem scanBody_of_append (x z inner : Str) (hz : '}' ∉ z)
    (h : scanBody (x ++ z) = some inner) : scanBody x = some inner := by
  induction x generalizing inner with
  | nil =>
    rw [List.nil_append, scanBody_no_brace z hz] at h
    exact absurd h (by simp)
  | cons c x ih =>
    simp only [List.cons_append] at h
    unfold scanBody at h ⊢
    by_cases hc : c = '}'
    · simpa [hc] using h
    · by_cases hl : isLineTerminator c = true
      · simp [hc, hl] at h
      · simp only [hc, hl, if_false, Option.map_eq_some', Bool.false_eq_true] at h ⊢
        obtain ⟨i, hi, rfl⟩ := h
        exact ⟨i, ih i hi, rfl⟩

theorem matchAt_of_append (x z : Str) (hz : '}' ∉ z) (hz0 : ∀ c, z.head? = some c → c ≠ '{')
    (h : matchAt x = none) : matchAt (x ++ z) = none := by
  cases x with
  | nil =>
    rw [List.nil_append]
    exact matchAt_no_brace z hz
  | cons c x =>
    by_cases hc : c = '$'
    · subst hc
      cases x with
      | nil =>
        cases z with
        | nil => rfl
        | cons d z => exact matchAt_dollar_other d z (hz0 d rfl)
      | cons d x =>
        by_cases hd : d = '{'
        · subst hd
          simp only [List.cons_append]
          rw [matchAt_dollar_brace] at h ⊢
          simp only [Option.map_eq_none'] at h ⊢
          cases hs : scanBody (x ++ z) with
          | none => rfl
          | some inner =>
            rw [scanBody_of_append x z inner hz hs] at h
            exact absurd h (by simp)
        · exact matchAt_dollar_other d _ hd
    · exact matchAt_not_dollar c _ hc

theorem matchRefs_nil_noMatch (s : Str) (h : matchRefs s = []) :
    ∀ p1 p2, s = p1 ++ p2 → matchAt p2 = none := by
  induction s with
  | nil =>
    intro p1 p2 e
    have : p2 = [] := by
      cases p1 with
      | nil => exact e.symm
      | cons _ _ => simp at e
    subst this
    rfl
  | cons c cs ih =>
    have h0 : matchAt (c :: cs) = none := by
      cases hm : matchAt (c :: cs) with
      | none => rfl
      | some m =>
        rw [matchRefs_cons_some c cs m hm] at h
        exact absurd h (by simp)
    rw [matchRefs_cons_none c cs h0] at h
    intro p1 p2 e
    cases p1 with
    | nil =>
      rw [List.nil_append] at e
      rw [← e]
      exact h0
    | cons d p1 =>
      simp only [List.cons_append, List.cons.injEq] at e
      exact ih h p1 p2 e.2

/-- Text without reference token, followed by closing parentheses, still has none. -/
theorem matchRefs_append_parens (s : Str) (p : Nat) (h : matchRefs s = []) :
    matchRefs (s ++ List.replicate p ')') = [] := by
  have hz : '}' ∉ List.replicate p ')' := by
    intro hm
    exact absurd (List.eq_of_mem_replicate hm) (by decide)
  have hz0 : ∀ c, (List.replicate p ')').head? = some c → c ≠ '{' := by
    intro c hc
    cases p with
    | zero => simp at hc
    | succ p =>
      simp [List.replicate_succ] at hc
      rw [← hc]
      decide
  rw [matchRefs_append_of_noMatchIn s _ (fun p1 p2 e _ =>
    matchAt_of_append p2 _ hz hz0 (matchRefs_nil_noMatch s h p1 p2 e))]
  exact matchRefs_replicate p

theorem matchRefs_wrapN_plain (s : Str) (p : Nat) (h : matchRefs s = []) :
    matchRefs (wrapN p s) = [] := by
  rw [wrapN_eq_append, matchRefs_append_of_noMatchIn _ _ (noMatchIn_replicate p _)]
  exact matchRefs_append_parens s p h

theorem map_set_of_nodup {β : Type} (L : List Nat) (hnd : L.Nodup) (f g : Nat → β) (p i : Nat)
    (hp : L.get? p = some i) (hg : ∀ j, j ≠ i → g j = f j) :
    (L.map f).set p (g i) = L.map g := by
  induction L generalizing p with
  | nil => simp at hp
  | cons a L ih =>
    rw [List.nodup_cons] at hnd
    cases p with
    | zero =>
      simp only [List.get?_cons_zero, Option.some.injEq] at hp
      subst hp
      simp only [List.map_cons, List.set_cons_zero, List.cons.injEq, true_and]
      apply List.map_congr_left
      intro j hj
      exact (hg j (fun e => hnd.1 (e ▸ hj))).symm
    | succ p =>
      simp only [List.get?_cons_succ] at hp
      simp only [List.map_cons, List.set_cons_succ, List.cons.injEq]
      refine ⟨(hg a ?_).symm, ih hnd.2 p hp⟩
      rintro rfl
      exact hnd.1 (List.get?_mem hp)

theorem find_in_map (L : List Nat) (g : Nat → Query) (ident : Nat → Str) (t : Nat)
    (ht : t ∈ L) (hid : ∀ j ∈ L, (g j).id = ident j)
    (hinj : ∀ j ∈ L, ident j = ident t → j = t) :
    (L.map g).find? (fun d => d.id = ident t) = some (g t) := by
  induction L with
  | nil => simp at ht
  | cons a L ih =>
    simp only [List.map_cons, List.find?_cons]
    by_cases ha : a = t
    · subst ha
      simp [hid a (List.mem_cons_self _ _)]
    · have hne : ¬ (g a).id = ident t := by
        rw [hid a (List.mem_cons_self _ _)]
        exact fun e => ha (hinj a (List.mem_cons_self _ _) e)
      simp only [hne, decide_False]
      rcases List.mem_cons.1 ht with e | ht
      · exact absurd e.symm ha
      · exact ih ht (fun j hj => hid j (List.mem_cons_of_mem _ hj))
          (fun j hj => hinj j (List.mem_cons_of_mem _ hj))

theorem chain_mem (maxLen n : Nat) (ident : Nat → Str) (T : Str) (L : List Nat)
    (hc : ChainOk maxLen n ident T L) (i : Nat) : i ∈ L ↔ i ≤ n := by
  rw [hc.perm.mem_iff, List.mem_range]
  omega

theorem chain_nodup (maxLen n : Nat) (ident : Nat → Str) (T : Str) (L : List Nat)
    (hc : ChainOk maxLen n ident T L) : L.Nodup :=
  hc.perm.nodup_iff.2 (List.nodup_range _)

theorem body0_literal (maxLen n : Nat) (ident : Nat → Str) (T : Str) (L : List Nat)
    (hc : ChainOk maxLen n ident T L) (l : Nat) (_hl : l ≤ n) :
    literalText (body0 n ident T l) = true := by
  unfold body0
  by_cases h : l < n
  · rw [if_pos h]
    exact literalText_token _ (hc.literalId (l + 1) (by omega) (by omega))
  · rw [if_neg h]
    exact hc.literalT

theorem body0_fit (maxLen n : Nat) (ident : Nat → Str) (T : Str) (L : List Nat)
    (hc : ChainOk maxLen n ident T L) (l : Nat) (_hl : l ≤ n) :
    2 * n + (body0 n ident T l).length ≤ maxLen := by
  unfold body0
  by_cases h : l < n
  · rw [if_pos h]
    exact hc.fitId (l + 1) (by omega) (by omega)
  · rw [if_neg h]
    exact hc.fitT

theorem advance_eq (n : Nat) (lev : Nat → Nat) (i j : Nat) (hj : j ≠ i) :
    advance n lev i j = lev j := by
  unfold advance
  by_cases h : lev i < n
  · rw [if_pos h, Function.update_noteq hj]
  · rw [if_neg h]

theorem advance_self (n : Nat) (lev : Nat → Nat) (i : Nat) (h : lev i < n) :
    advance n lev i i = lev (lev i + 1) := by
  unfold advance
  rw [if_pos h, Function.update_same]

/-- Processing one query of a chain moves it to the level of the query it
refers to. -/
theorem chain_process (maxLen n : Nat) (ident : Nat → Str) (T : Str) (L : List Nat)
    (hc : ChainOk maxLen n ident T L) (lev : Nat → Nat) (hinv : LevInv n lev)
    (it : Nat) (hit : it ≠ maxIterations) (p i : Nat) (hp : L.get? p = some i) :
    processQuery maxLen it (L.map ident) p (chainState n ident T L lev) =
      some (chainState n ident T L (advance n lev i)) := by
  have hiL : i ∈ L := List.get?_mem hp
  have hin : i ≤ n := (chain_mem maxLen n ident T L hc i).1 hiL
  obtain ⟨hlo, hhi⟩ := hinv i hin
  have hq : (chainState n ident T L lev).get? p = some (stateQ n ident T i (lev i)) := by
    unfold chainState
    rw [List.get?_eq_getElem?, List.getElem?_map, ← List.get?_eq_getElem?, hp]
    rfl
  by_cases hlt : lev i < n
  · -- the body is a wrapped token naming the next query
    obtain ⟨hlo1, hhi1⟩ := hinv (lev i + 1) (by omega)
    have hbody : (stateQ n ident T i (lev i)).compiledQueryString =
        wrapN (lev i - i) (token (ident (lev i + 1))) := by
      simp [stateQ, body0, hlt]
    have hset : (chainState n ident T L lev).set p (markCompiled (stateQ n ident T i (lev i))) =
        L.map (fun j => if j = i then markCompiled (stateQ n ident T i (lev i))
          else stateQ n ident T j (lev j)) := by
      have := map_set_of_nodup L (chain_nodup maxLen n ident T L hc)
        (fun j => stateQ n ident T j (lev j))
        (fun j => if j = i then markCompiled (stateQ n ident T i (lev i))
          else stateQ n ident T j (lev j)) p i hp (fun j hj => by simp [hj])
      simpa [chainState] using this
    have hfind : ((chainState n ident T L lev).set p
        (markCompiled (stateQ n ident T i (lev i)))).find?
        (fun d => d.id = ident (lev i + 1)) =
        some (stateQ n ident T (lev i + 1) (lev (lev i + 1))) := by
      rw [hset]
      have := find_in_map L (fun j => if j = i then markCompiled (stateQ n ident T i (lev i))
          else stateQ n ident T j (lev j)) ident (lev i + 1)
        ((chain_mem maxLen n ident T L hc _).2 (by omega))
        (fun j _ => by by_cases hj : j = i <;> simp [hj, markCompiled, stateQ])
        (fun j hj e => hc.inj j (lev i + 1) ((chain_mem maxLen n ident T L hc j).1 hj)
          (by omega) e)
      rw [this]
      have hne : lev i + 1 ≠ i := by omega
      simp [hne]
    have hmem : ident (lev i + 1) ∈ L.map ident :=
      List.mem_map_of_mem _ ((chain_mem maxLen n ident T L hc _).2 (by omega))
    have hfit := body0_fit maxLen n ident T L hc (lev (lev i + 1)) hhi1
    rw [processQuery_wrapped maxLen it (L.map ident) p _ (stateQ n ident T i (lev i))
      (stateQ n ident T (lev i + 1) (lev (lev i + 1))) (lev i - i)
      (lev (lev i + 1) - (lev i + 1)) (ident (lev i + 1)) (body0 n ident T (lev (lev i + 1)))
      hq hbody (hc.referable _ (by omega) (by omega)) hmem hit hfind rfl
      (body0_literal maxLen n ident T L hc _ hhi1) (by omega)]
    congr 1
    have hnew : withBody (markCompiled (stateQ n ident T i (lev i)))
        (wrapN (lev i - i + (lev (lev i + 1) - (lev i + 1)) + 1)
          (body0 n ident T (lev (lev i + 1)))) = stateQ n ident T i (advance n lev i i) := by
      rw [advance_self n lev i hlt]
      have h1 : lev i - i + (lev (lev i + 1) - (lev i + 1)) + 1 = lev (lev i + 1) - i := by omega
      have h2 : i < lev (lev i + 1) := by omega
      simp [withBody, markCompiled, stateQ, h1, h2]
    rw [hnew]
    have := map_set_of_nodup L (chain_nodup maxLen n ident T L hc)
      (fun j => stateQ n ident T j (lev j))
      (fun j => stateQ n ident T j (advance n lev i j)) p i hp
      (fun j hj => by simp only [advance_eq n lev i j hj])
    simpa [chainState] using this
  · -- the query is resolved: nothing to do
    have hadv : advance n lev i = lev := by
      unfold advance
      rw [if_neg hlt]
    rw [hadv]
    apply processQuery_noRefs
    intro q hq'
    rw [hq] at hq'
    simp only [Option.some.injEq] at hq'
    subst hq'
    have hb : body0 n ident T (lev i) = T := by
      unfold body0
      rw [if_neg hlt]
    show matchRefs (wrapN (lev i - i) (body0 n ident T (lev i))) = []
    rw [hb]
    exact matchRefs_wrapN_plain T _ hc.noRefT

theorem filterMap_get?_range (L : List Nat) :
    (List.range L.length).filterMap (fun p => L.get? p) = L := by
  induction L with
  | nil => rfl
  | cons a L ih =>
    rw [List.length_cons, List.range_succ_eq_map, List.filterMap_cons]
    simp only [List.get?_cons_zero, List.filterMap_map]
    congr 1

theorem advance_inv (n : Nat) (lev : Nat → Nat) (i : Nat) (hinv : LevInv n lev) :
    LevInv n (advance n lev i) := by
  intro j hj
  by_cases hji : j = i
  · subst hji
    by_cases h : lev j < n
    · rw [advance_self n lev j h]
      have h1 := hinv j hj
      have h2 := hinv (lev j + 1) (by omega)
      omega
    · unfold advance
      rw [if_neg h]
      exact hinv j hj
  · rw [advance_eq n lev i j hji]
    exact hinv j hj

theorem advance_mono (n : Nat) (lev : Nat → Nat) (i : Nat) (hinv : LevInv n lev) (hi : i ≤ n)
    (j : Nat) : lev j ≤ advance n lev i j := by
  by_cases hji : j = i
  · subst hji
    by_cases h : lev j < n
    · rw [advance_self n lev j h]
      have h2 := hinv (lev j + 1) (by omega)
      omega
    · unfold advance
      rw [if_neg h]
  · rw [advance_eq n lev i j hji]

theorem advance_prog (n k : Nat) (lev : Nat → Nat) (i : Nat) (hinv : LevInv n lev)
    (hprog : LevProg n k lev) (hi : i ≤ n) : min n (i + (k + 1)) ≤ advance n lev i i := by
  by_cases h : lev i < n
  · rw [advance_self n lev i h]
    have h1 := hprog i hi
    have h2 := hprog (lev i + 1) (by omega)
    have h3 := hinv (lev i + 1) (by omega)
    omega
  · unfold advance
    rw [if_neg h]
    have := hinv i hi
    omega

/-- Folding `advance` over the queries of a list: the invariant is kept, levels
only grow, and every query of the list gains a step. -/
theorem foldl_advance (n k : Nat) (is : List Nat) (his : ∀ i ∈ is, i ≤ n) :
    ∀ lev : Nat → Nat, LevInv n lev → LevProg n k lev →
      LevInv n (is.foldl (advance n) lev) ∧ LevProg n k (is.foldl (advance n) lev) ∧
      (∀ j, lev j ≤ is.foldl (advance n) lev j) ∧
      ∀ i ∈ is, min n (i + (k + 1)) ≤ is.foldl (advance n) lev i := by
  induction is with
  | nil =>
    intro lev hinv hprog
    exact ⟨hinv, hprog, fun _ => Nat.le_refl _, fun i hi => absurd hi (by simp)⟩
  | cons a is ih =>
    intro lev hinv hprog
    have ha : a ≤ n := his a (List.mem_cons_self _ _)
    have hinv1 := advance_inv n lev a hinv
    have hmono1 := advance_mono n lev a hinv ha
    have hprog1 : LevProg n k (advance n lev a) :=
      fun j hj => Nat.le_trans (hprog j hj) (hmono1 j)
    obtain ⟨h1, h2, h3, h4⟩ :=
      ih (fun i hi => his i (List.mem_cons_of_mem _ hi)) (advance n lev a) hinv1 hprog1
    refine ⟨h1, h2, fun j => Nat.le_trans (hmono1 j) (h3 j), ?_⟩
    intro i hi
    rcases List.mem_cons.1 hi with rfl | hi
    · exact Nat.le_trans (advance_prog n k lev i hinv hprog ha) (h3 i)
    · exact h4 i hi

theorem chain_processFrom (maxLen n : Nat) (ident : Nat → Str) (T : Str) (L : List Nat)
    (hc : ChainOk maxLen n ident T L) (it : Nat) (hit : it ≠ maxIterations) (ps : List Nat) :
    ∀ lev : Nat → Nat, LevInv n lev →
      processFrom maxLen it (L.map ident) ps (chainState n ident T L lev) =
        some (chainState n ident T L
          ((ps.filterMap (fun p => L.get? p)).foldl (advance n) lev)) := by
  induction ps with
  | nil =>
    intro lev _
    rfl
  | cons p ps ih =>
    intro lev hinv
    unfold processFrom
    cases hp : L.get? p with
    | none =>
      have hnone : (chainState n ident T L lev).get? p = none := by
        unfold chainState
        rw [List.get?_eq_getElem?, List.getElem?_map, ← List.get?_eq_getElem?, hp]
        rfl
      have : processQuery maxLen it (L.map ident) p (chainState n ident T L lev) =
          some (chainState n ident T L lev) := by
        unfold processQuery
        rw [hnone]
      rw [this]
      simp only [List.filterMap_cons, hp]
      exact ih lev hinv
    | some i =>
      rw [chain_process maxLen n ident T L hc lev hinv it hit p i hp]
      simp only [List.filterMap_cons, hp, List.foldl_cons]
      exact ih _ (advance_inv n lev i hinv)

/-- One pass over a chain: every query gains a step. -/
theorem chain_onePass (maxLen n : Nat) (ident : Nat → Str) (T : Str) (L : List Nat)
    (hc : ChainOk maxLen n ident T L) (it : Nat) (hit : it ≠ maxIterations) (k : Nat)
    (lev : Nat → Nat) (hinv : LevInv n lev) (hprog : LevProg n k lev) :
    ∃ lev1, LevInv n lev1 ∧ LevProg n (k + 1) lev1 ∧
      onePass maxLen it (L.map ident) (chainState n ident T L lev) =
        some (chainState n ident T L lev1) := by
  have hmem : ∀ i ∈ L, i ≤ n := fun i hi => (chain_mem maxLen n ident T L hc i).1 hi
  obtain ⟨h1, _, _, h4⟩ := foldl_advance n k L hmem lev hinv hprog
  refine ⟨L.foldl (advance n) lev, h1, ?_, ?_⟩
  · intro i hi
    exact h4 i ((chain_mem maxLen n ident T L hc i).2 hi)
  · unfold onePass
    rw [chain_processFrom maxLen n ident T L hc it hit _ lev hinv]
    have hlen : (chainState n ident T L lev).length = L.length := by simp [chainState]
    rw [hlen, filterMap_get?_range]

theorem stateQ_start (n : Nat) (ident : Nat → Str) (T : Str) (i : Nat) :
    stateQ n ident T i i = mkQuery (ident i) (body0 n ident T i) := by
  simp [stateQ, mkQuery, wrapN_zero]

theorem chain_init (n : Nat) (ident : Nat → Str) (T : Str) (L : List Nat) :
    L.map (fun i => mkQuery (ident i) (body0 n ident T i)) =
      chainState n ident T L (fun i => i) := by
  unfold chainState
  apply List.map_congr_left
  intro i _
  exact (stateQ_start n ident T i).symm

theorem chain_ids (n : Nat) (ident : Nat → Str) (T : Str) (L : List Nat) :
    (L.map (fun i => mkQuery (ident i) (body0 n ident T i))).map (·.id) = L.map ident := by
  rw [List.map_map]
  rfl

/-- The state of a chain after `k` passes, for `k` up to the iteration bound. -/
theorem chain_afterPasses (maxLen n : Nat) (ident : Nat → Str) (T : Str) (L : List Nat)
    (hc : ChainOk maxLen n ident T L) (k : Nat) (hk : k ≤ maxIterations) :
    ∃ lev, LevInv n lev ∧ LevProg n k lev ∧
      afterPasses maxLen k (L.map (fun i => mkQuery (ident i) (body0 n ident T i))) =
        some (chainState n ident T L lev) := by
  induction k with
  | zero =>
    refine ⟨fun i => i, fun i hi => ⟨Nat.le_refl _, hi⟩, fun i hi => ?_, ?_⟩
    · simp only [Nat.add_zero]
      exact Nat.min_le_right _ _
    · rw [chain_init]
      rfl
  | succ k ih =>
    obtain ⟨lev, hinv, hprog, hst⟩ := ih (by omega)
    obtain ⟨lev1, hinv1, hprog1, hpass⟩ :=
      chain_onePass maxLen n ident T L hc k (by omega) k lev hinv hprog
    exact ⟨lev1, hinv1, hprog1,
      afterPasses_step maxLen k (L.map ident) _ _ _ (chain_ids n ident T L) hst hpass⟩

theorem chain_done (maxLen n : Nat) (ident : Nat → Str) (T : Str) (L : List Nat)
    (hc : ChainOk maxLen n ident T L) (hn : n ≤ maxIterations) (lev : Nat → Nat)
    (hinv : LevInv n lev) (hprog : LevProg n maxIterations lev) :
    chainState n ident T L lev = L.map (fun i => stateQ n ident T i n) := by
  unfold chainState
  apply List.map_congr_left
  intro i hi
  have hin := (chain_mem maxLen n ident T L hc i).1 hi
  have h1 := hinv i hin
  have h2 := hprog i hin
  have : lev i = n := by omega
  rw [this]

theorem chain_final_noRefs (n : Nat) (ident : Nat → Str) (T : Str) (L : List Nat)
    (hT : matchRefs T = []) : NoRefs (L.map (fun i => stateQ n ident T i n)) := by
  intro q hq
  rw [List.mem_map] at hq
  obtain ⟨i, _, rfl⟩ := hq
  have hb : body0 n ident T n = T := by
    unfold body0
    rw [if_neg (Nat.lt_irrefl n)]
  show matchRefs (wrapN (n - i) (body0 n ident T n)) = []
  rw [hb]
  exact matchRefs_wrapN_plain T _ hT

/-- A chain of at most a hundred references resolves, in any document order. -/
theorem chain_resolve (maxLen n : Nat) (ident : Nat → Str) (T : Str) (L : List Nat)
    (hn : n ≤ maxIterations) (hc : ChainOk maxLen n ident T L) :
    resolve maxLen (L.map (fun i => mkQuery (ident i) (body0 n ident T i))) =
      some (L.map (fun i => stateQ n ident T i n)) := by
  obtain ⟨lev, hinv, hprog, hst⟩ :=
    chain_afterPasses maxLen n ident T L hc maxIterations (Nat.le_refl _)
  rw [chain_done maxLen n ident T L hc hn lev hinv hprog] at hst
  refine resolve_step maxLen (L.map ident) _ _ _ (chain_ids n ident T L) hst ?_
  unfold onePass
  exact processFrom_noRefs maxLen _ _ _ _ (chain_final_noRefs n ident T L hc.noRefT)

theorem c1_core (maxLen : Nat) (aid bid A B tok : Str) (hab : aid ≠ bid)
    (hA : plainText A = true) (hone : matchRefs B = [tok]) (href : referencedId tok = aid)
    (hfit : (spliceFirst B tok (paren A)).length ≤ maxLen) :
    resolve maxLen [mkQuery aid A, mkQuery bid B] =
        some [mkQuery aid A,
              withBody (markCompiled (mkQuery bid B)) (spliceFirst B tok (paren A))] ∧
    resolve maxLen [mkQuery bid B, mkQuery aid A] =
        some [withBody (markCompiled (mkQuery bid B)) (spliceFirst B tok (paren A)),
              mkQuery aid A] := by
  obtain ⟨pre, inner, post, rfl, rfl, hok, hno, hpost⟩ := matchRefs_single B tok hone
  rw [referencedId_token inner hok] at href
  rw [spliceFirst_token pre inner post _ hok hno] at hfit ⊢
  have hAr : matchRefs A = [] := matchRefs_plain A hA
  have hlit : literalText A = true := literalText_of_plainText A hA
  have hfin : matchRefs (pre ++ paren A ++ post) = [] :=
    matchRefs_spliced pre inner post A hok hno hpost hA
  constructor
  · have p0 := processQuery_noRefs maxLen 0 [aid, bid] 0
      [mkQuery aid A, mkQuery bid (pre ++ (token inner ++ post))]
      (by intro q hq; simp at hq; subst hq; exact hAr)
    have p1 := processQuery_subst maxLen 0 [aid, bid] 1
      [mkQuery aid A, mkQuery bid (pre ++ (token inner ++ post))]
      (mkQuery bid (pre ++ (token inner ++ post))) (mkQuery aid A)
      pre inner post rfl rfl hno hok hpost (by simp [href]) (by decide)
      (by simp [List.find?, mkQuery, href]) hlit hfit
    have hpass := onePass_two maxLen 0 [aid, bid] _ _ _ _ p0 p1
    show passesFrom maxLen [aid, bid] (100 + 1) 0 _ = _
    rw [passesFrom_step maxLen _ 100 0 _ _ hpass]
    simp only [List.set, mkQuery]
    apply passesFrom_noRefs
    intro q hq
    simp only [List.mem_cons, List.mem_singleton, List.not_mem_nil, or_false] at hq
    rcases hq with rfl | rfl
    · exact hAr
    · exact hfin
  · have p0 := processQuery_subst maxLen 0 [bid, aid] 0
      [mkQuery bid (pre ++ (token inner ++ post)), mkQuery aid A]
      (mkQuery bid (pre ++ (token inner ++ post))) (mkQuery aid A)
      pre inner post rfl rfl hno hok hpost (by simp [href]) (by decide)
      (by simp [List.find?, mkQuery, markCompiled, href, Ne.symm hab]) hlit hfit
    have p1 := processQuery_noRefs maxLen 0 [bid, aid] 1
      [withBody (markCompiled (mkQuery bid (pre ++ (token inner ++ post))))
        (pre ++ paren A ++ post), mkQuery aid A]
      (by intro q hq; simp at hq; subst hq; exact hAr)
    have hpass := onePass_two maxLen 0 [bid, aid] _ _ _ _ p0 p1
    show passesFrom maxLen [bid, aid] (100 + 1) 0 _ = _
    rw [passesFrom_step maxLen _ 100 0 _ _ hpass]
    apply passesFrom_noRefs
    intro q hq
    simp only [List.mem_cons, List.mem_singleton, List.not_mem_nil, or_false] at hq
    rcases hq with rfl | rfl
    · exact hfin
    · exact hAr

theorem c3_core (maxLen : Nat) (qs qs1 : List Query) (j : Nat) (q : Query) (tok : Str)
    (hq : qs.get? j = some q) (hone : matchRefs q.compiledQueryString = [tok])
    (hmiss : referencedId tok ∉ qs.map (·.id))
    (hres : resolve maxLen qs = some qs1) :
    qs1.get? j = some (withError (markCompiled q) (missingMessage (referencedId tok))) := by
  obtain ⟨inner, hok, rfl⟩ := mem_matchRefs q.compiledQueryString tok (by rw [hone]; simp)
  rw [referencedId_token inner hok] at hmiss ⊢
  have hbr : '}' ∉ missingMessage (trim inner) := by
    have := referencedId_no_brace inner hok
    rw [referencedId_token inner hok] at this
    exact missingMessage_no_brace _ this
  have hlt : j < qs.length := by
    rw [List.get?_eq_some] at hq
    exact hq.1
  change passesFrom maxLen (qs.map (·.id)) (100 + 1) 0 qs = some qs1 at hres
  unfold passesFrom at hres
  cases hp : onePass maxLen 0 (qs.map (·.id)) qs with
  | none => simp [hp] at hres
  | some qs2 =>
    simp only [hp] at hres
    have h2 := (processFrom_missing maxLen 0 _ j q inner hone hok hmiss _ qs qs2 hp hq).1
      (List.mem_range.2 hlt)
    exact passesFrom_keeps maxLen _ j _ (matchRefs_no_brace _ hbr) 100 1 qs2 qs1 hres h2

theorem token_injective (a b : Str) (h : token a = token b) : a = b := by
  simp only [token, List.cons.injEq, true_and] at h
  exact List.append_cancel_right h

theorem missingMessage_empty :
    missingMessage [] = "Compiler error: missing query reference".toList := by decide

theorem missingMessage_named (x : Str) (hx : x ≠ []) :
    missingMessage x = "Compiler error: '".toList ++ x ++ "' is not a query on this page".toList := by
  unfold missingMessage
  rw [if_neg hx]
  simp

theorem c3_named (maxLen : Nat) (qs qs1 : List Query) (j : Nat) (q : Query) (inner : Str)
    (hq : qs.get? j = some q) (hone : matchRefs q.compiledQueryString = [token inner])
    (hmiss : trim inner ∉ qs.map (·.id))
    (hres : resolve maxLen qs = some qs1) :
    qs1.get? j = some (withError (markCompiled q) (missingMessage (trim inner))) := by
  obtain ⟨inner', hok, he⟩ := mem_matchRefs q.compiledQueryString (token inner)
    (by rw [hone]; simp)
  have hi := token_injective _ _ he
  subst hi
  have h := c3_core maxLen qs qs1 j q (token inner) hq hone
    (by rw [referencedId_token inner hok]; exact hmiss) hres
  rw [referencedId_token inner hok] at h
  exact h

theorem c10_core (maxLen : Nat) (aid bid inner : Str)
    (hb : Referable bid) (hok : innerOk inner)
    (hma : trim inner ≠ aid) (hmb : trim inner ≠ bid)
    (hlit : literalText (missingMessage (trim inner)) = true)
    (hfit : (missingMessage (trim inner)).length + 2 ≤ maxLen) :
    resolve maxLen [mkQuery bid (token inner), mkQuery aid (token bid)] =
      some [withError (markCompiled (mkQuery bid (token inner))) (missingMessage (trim inner)),
            withBody (markCompiled (mkQuery aid (token bid)))
              (paren (missingMessage (trim inner)))] := by
  have hbr : '}' ∉ missingMessage (trim inner) := by
    have := referencedId_no_brace inner hok
    rw [referencedId_token inner hok] at this
    exact missingMessage_no_brace _ this
  have hnot : trim inner ∉ [bid, aid] := by simp [hma, hmb]
  have hin : trim bid ∈ [bid, aid] := by simp [hb.2]
  have p0 := processQuery_missing maxLen 0 [bid, aid] 0
      [mkQuery bid (token inner), mkQuery aid (token bid)] (mkQuery bid (token inner)) inner rfl
      (by simpa [mkQuery] using matchRefs_token inner [] hok) hok hnot (by omega)
  have p1 := processQuery_subst maxLen 0 [bid, aid] 1
      [withError (markCompiled (mkQuery bid (token inner))) (missingMessage (trim inner)),
        mkQuery aid (token bid)]
      (mkQuery aid (token bid))
      (withError (markCompiled (mkQuery bid (token inner))) (missingMessage (trim inner)))
      [] bid [] rfl (by simp [mkQuery]) (noMatchIn_of_no_dollar _ _ (by simp)) hb.1 rfl hin
      (by decide) (by simp [List.find?, mkQuery, hb.2, withError, markCompiled]) hlit
      (by simp [paren, withError]; omega)
  have hpass := onePass_two maxLen 0 [bid, aid] _ _ _ _ p0 p1
  show passesFrom maxLen [bid, aid] (100 + 1) 0 _ = _
  rw [passesFrom_step maxLen _ 100 0 _ _ hpass]
  simp only [List.set, List.nil_append, List.append_nil, withError, withBody, markCompiled]
  apply passesFrom_noRefs
  intro q hq
  simp only [List.mem_cons, List.mem_singleton, List.not_mem_nil, or_false] at hq
  rcases hq with rfl | rfl
  · exact matchRefs_no_brace _ hbr
  · apply matchRefs_no_brace
    simp [paren, hbr]

/-! ## The claims -/

/-- C1 (as amended): for two queries with distinct ids `a` and `b`, in either
document order, where the body `A` of `a` has no `$` directly followed by `{`,
`$`, `&`, a backquote or a quote, and the body `B` of `b` has exactly one
reference token, naming `a`, resolution returns (when the result fits the
string limit) `a` unchanged with `compiled = false` and `b` with the token
replaced by `(A)`, `compiled = true`, and no error on either query. -/
theorem C1_reference_substitution (maxLen : Nat) (aid bid A B tok : Str) (hab : aid ≠ bid)
    (hA : plainText A = true) (hone : matchRefs B = [tok]) (href : referencedId tok = aid)
    (hfit : (spliceFirst B tok (paren A)).length ≤ maxLen) :
    resolve maxLen [mkQuery aid A, mkQuery bid B] =
        some [{ id := aid, compiledQueryString := A, inputQueryString := A,
                compiled := false, compileError := none },
              { id := bid, compiledQueryString := spliceFirst B tok (paren A),
                inputQueryString := B, compiled := true, compileError := none }] ∧
    resolve maxLen [mkQuery bid B, mkQuery aid A] =
        some [{ id := bid, compiledQueryString := spliceFirst B tok (paren A),
                inputQueryString := B, compiled := true, compileError := none },
              { id := aid, compiledQueryString := A, inputQueryString := A,
                compiled := false, compileError := none }] :=
  c1_core maxLen aid bid A B tok hab hA hone href hfit

/-- C1, witness: `a = "select 1"` and `b = "select * from (${a}) t"` give
`b = "select * from ((select 1)) t"`. -/
theorem C1_witness :
    resolve 536870888 [mkQuery "a".toList "select 1".toList,
        mkQuery "b".toList "select * from (${a}) t".toList] =
      some [{ id := "a".toList, compiledQueryString := "select 1".toList,
              inputQueryString := "select 1".toList, compiled := false, compileError := none },
            { id := "b".toList, compiledQueryString := "select * from ((select 1)) t".toList,
              inputQueryString := "select * from (${a}) t".toList, compiled := true,
              compileError := none }] :=
  (C1_reference_substitution 536870888 "a".toList "b".toList "select 1".toList
    "select * from (${a}) t".toList "${a}".toList (by decide) (by decide) (by decide)
    (by decide) (by decide)).1

/-- C1, counterexample: `a = "${"` holds no reference token and `b = "${a}}"`
holds exactly one, `${a}`; after the substitution `b` reads `(${)}`, which is
scanned again, and `b` ends with an unknown-reference error instead of the
substituted text.  Likewise `a = "select $$x$$"` is not inserted verbatim. -/
theorem C1_counterexample :
    (matchRefs "$\x7b".toList = [] ∧ matchRefs "$\x7ba\x7d\x7d".toList = ["${a}".toList] ∧
      referencedId "${a}".toList = "a".toList ∧
      resolve 536870888 [mkQuery "a".toList "$\x7b".toList, mkQuery "b".toList "$\x7ba\x7d\x7d".toList] =
        some [mkQuery "a".toList "$\x7b".toList,
              { id := "b".toList,
                compiledQueryString := "Compiler error: ')' is not a query on this page".toList,
                inputQueryString := "$\x7ba\x7d\x7d".toList, compiled := true,
                compileError := some "Compiler error: ')' is not a query on this page".toList }]) ∧
    (matchRefs "select $$x$$".toList = [] ∧
      resolve 536870888 [mkQuery "a".toList "select $$x$$".toList,
          mkQuery "b".toList "select * from (${a}) t".toList] =
        some [mkQuery "a".toList "select $$x$$".toList,
              { id := "b".toList,
                compiledQueryString := "select * from ((select $x$)) t".toList,
                inputQueryString := "select * from (${a}) t".toList, compiled := true,
                compileError := none }]) := by
  decide

/-- C3: in any list of queries, a query whose body holds exactly one reference
token `${inner}`, the trimmed `inner` being the id of no query, ends resolution
(when resolution returns) with the missing-reference message for the trimmed id
as its error and as its body: `Compiler error: missing query reference` for an
empty id, `Compiler error: 'x' is not a query on this page` otherwise. -/
theorem C3_undefined_reference (maxLen : Nat) (qs qs1 : List Query) (j : Nat) (q : Query)
    (inner : Str) (hq : qs.get? j = some q)
    (hone : matchRefs q.compiledQueryString = [token inner])
    (hmiss : trim inner ∉ qs.map (·.id))
    (hres : resolve maxLen qs = some qs1) :
    (∃ q1, qs1.get? j = some q1 ∧ q1.id = q.id ∧
      q1.compileError = some (missingMessage (trim inner)) ∧
      q1.compiledQueryString = missingMessage (trim inner)) ∧
    (trim inner = [] →
      missingMessage (trim inner) = "Compiler error: missing query reference".toList) ∧
    (trim inner ≠ [] →
      missingMessage (trim inner) =
        "Compiler error: '".toList ++ trim inner ++ "' is not a query on this page".toList) :=
  ⟨⟨_, c3_named maxLen qs qs1 j q inner hq hone hmiss hres, rfl, rfl, rfl⟩,
   fun h => h ▸ missingMessage_empty, missingMessage_named (trim inner)⟩

/-- C3, witness: the single query `a = "${missing}"`. -/
theorem C3_witness :
    (∃ q1, [({ id := "a".toList,
               compiledQueryString := "Compiler error: 'missing' is not a query on this page".toList,
               inputQueryString := "${missing}".toList, compiled := true,
               compileError := some "Compiler error: 'missing' is not a query on this page".toList }
              : Query)].get? 0 = some q1 ∧
      q1.id = "a".toList ∧
      q1.compileError = some (missingMessage (trim "missing".toList)) ∧
      q1.compiledQueryString = missingMessage (trim "missing".toList)) ∧
    (trim "missing".toList = [] →
      missingMessage (trim "missing".toList) = "Compiler error: missing query reference".toList) ∧
    (trim "missing".toList ≠ [] →
      missingMessage (trim "missing".toList) =
        "Compiler error: '".toList ++ trim "missing".toList ++
          "' is not a query on this page".toList) :=
  C3_undefined_reference 536870888 [mkQuery "a".toList "${missing}".toList] _ 0
    (mkQuery "a".toList "${missing}".toList) "missing".toList (by decide) (by decide)
    (by decide) (by decide)

/-- C4: when the resolution loop returns, every query either has no error and a
body without reference token, or has an error that is also its body and holds
no reference token.  The list is any list of freshly extracted queries,
duplicate ids included. -/
theorem C4_post_resolution_invariant (maxLen : Nat) (blocks : List (Str × Str))
    (out : List Query)
    (hres : resolve maxLen (blocks.map (fun b => mkQuery b.1 b.2)) = some out) :
    ∀ q ∈ out,
      (q.compileError = none ∧ matchRefs q.compiledQueryString = []) ∨
      (∃ m, q.compileError = some m ∧ q.compiledQueryString = m ∧ matchRefs m = []) := by
  intro q hq
  obtain ⟨hg, hr⟩ := resolve_settled maxLen _ out (allGood_map_mkQuery blocks) hres q hq
  cases he : q.compileError with
  | none => exact Or.inl ⟨rfl, hr⟩
  | some m =>
    obtain ⟨hb, _⟩ := hg m he
    exact Or.inr ⟨m, rfl, hb, by rw [← hb]; exact hr⟩

/-- C4, witness: three queries, two of them with the same id, one with an
unknown reference. -/
theorem C4_witness :
    resolve 536870888
        ([("a".toList, "${b} ${zz}".toList), ("b".toList, "select 1".toList),
          ("a".toList, "dup ${b}".toList)].map (fun b => mkQuery b.1 b.2)) =
      some [{ id := "a".toList,
              compiledQueryString := "Compiler error: 'zz' is not a query on this page".toList,
              inputQueryString := "${b} ${zz}".toList, compiled := true,
              compileError := some "Compiler error: 'zz' is not a query on this page".toList },
            mkQuery "b".toList "select 1".toList,
            { id := "a".toList, compiledQueryString := "dup (select 1)".toList,
              inputQueryString := "dup ${b}".toList, compiled := true, compileError := none }] ∧
    ∀ q ∈ [({ id := "a".toList,
              compiledQueryString := "Compiler error: 'zz' is not a query on this page".toList,
              inputQueryString := "${b} ${zz}".toList, compiled := true,
              compileError := some "Compiler error: 'zz' is not a query on this page".toList }
              : Query),
           mkQuery "b".toList "select 1".toList,
           { id := "a".toList, compiledQueryString := "dup (select 1)".toList,
             inputQueryString := "dup ${b}".toList, compiled := true, compileError := none }],
      (q.compileError = none ∧ matchRefs q.compiledQueryString = []) ∨
      (∃ m, q.compileError = some m ∧ q.compiledQueryString = m ∧ matchRefs m = []) :=
  ⟨by decide, C4_post_resolution_invariant 536870888
    [("a".toList, "${b} ${zz}".toList), ("b".toList, "select 1".toList),
     ("a".toList, "dup ${b}".toList)] _ (by decide)⟩

/-- C6 (as amended): for a document with at least one named query whose
resolution returns, from any cache state, the first run returns the ids in
document order and a second run with the same content returns the same ids and
leaves the state as the first run left it; the directory then holds the
artifact named by the content hash, and holds it alone when the directory held
at most one entry before the first run. -/
theorem C6_cache_idempotence (env : Env) (nodes : List CodeNode) (filename : Str)
    (fs : CacheState) (h : Digest) (qs : List Query)
    (hroute : getRouteHash env filename = some h)
    (hres : resolve env.maxLen (extractedOf env nodes) = some qs)
    (hne : extractedOf env nodes ≠ []) :
    ∃ fs1,
      updateExtractedQueriesDir env nodes filename fs =
        some ((extractedOf env nodes).map (·.id), fs1) ∧
      updateExtractedQueriesDir env nodes filename fs1 =
        some ((extractedOf env nodes).map (·.id), fs1) ∧
      fileExists fs1 h (FileName.json (env.md5 (env.stringify qs))) = true ∧
      ((∀ dir, fs h = some dir → dir.length ≤ 1) →
        ∃ content, fs1 h = some [(FileName.json (env.md5 (env.stringify qs)), content)]) := by
  obtain ⟨fs1, h1, h2, h3, _, _⟩ := update_once env nodes filename fs h qs hroute hres hne
  exact ⟨fs1, h1, update_hit env nodes filename fs1 h qs hroute hres hne h2, h2, h3⟩

/-- C6, witness: a page with the query `sales` and a `SQL` code block, first
processed on an empty cache. -/
theorem C6_witness :
    ∃ fs1,
      updateExtractedQueriesDir exampleEnv
          [⟨some "sales".toList, " select 1 ".toList⟩, ⟨some "SQL".toList, "select ${x}".toList⟩]
          "/proj/src/pages/index.md".toList (fun _ => none) =
        some (["sales".toList], fs1) ∧
      updateExtractedQueriesDir exampleEnv
          [⟨some "sales".toList, " select 1 ".toList⟩, ⟨some "SQL".toList, "select ${x}".toList⟩]
          "/proj/src/pages/index.md".toList fs1 =
        some (["sales".toList], fs1) ∧
      fileExists fs1 (exampleEnv.md5 "/index".toList)
        (FileName.json (exampleEnv.md5 "salesselect 1".toList)) = true ∧
      ((∀ dir, (fun _ => none : CacheState) (exampleEnv.md5 "/index".toList) = some dir →
          dir.length ≤ 1) →
        ∃ content, fs1 (exampleEnv.md5 "/index".toList) =
          some [(FileName.json (exampleEnv.md5 "salesselect 1".toList), content)]) :=
  C6_cache_idempotence exampleEnv
    [⟨some "sales".toList, " select 1 ".toList⟩, ⟨some "SQL".toList, "select ${x}".toList⟩]
    "/proj/src/pages/index.md".toList (fun _ => none) (exampleEnv.md5 "/index".toList)
    [mkQuery "sales".toList "select 1".toList] (by decide) (by decide) (by decide)

/-- C6, counterexample: a directory that already holds the artifact of the
content hash next to another file.  Both runs are cache hits and the directory
still holds two files afterwards. -/
theorem C6_counterexample :
    ((updateExtractedQueriesDir exampleEnv [⟨some "sales".toList, "select 1".toList⟩]
        "/proj/src/pages/index.md".toList
        (fun _ => some [(FileName.json (exampleEnv.md5 "salesselect 1".toList), []),
                        (FileName.other "stale.json".toList, [])])).bind
      (fun r => updateExtractedQueriesDir exampleEnv [⟨some "sales".toList, "select 1".toList⟩]
        "/proj/src/pages/index.md".toList r.2)).map
      (fun r => (r.1, (r.2 (exampleEnv.md5 "/index".toList)).map (fun dir => dir.map (·.1)))) =
    some (["sales".toList],
      some [FileName.json (exampleEnv.md5 "salesselect 1".toList),
            FileName.other "stale.json".toList]) := by
  decide

/-- C8: for a document without named query, whatever the cache state, the
engine returns the empty id list, the directory of the document is gone and
the directory of every other document is as before. -/
theorem C8_no_queries (env : Env) (nodes : List CodeNode) (filename : Str) (fs : CacheState)
    (h : Digest) (hroute : getRouteHash env filename = some h)
    (hnone : extractedOf env nodes = []) :
    ∃ fs1, updateExtractedQueriesDir env nodes filename fs = some ([], fs1) ∧
      fs1 h = none ∧ ∀ h1, h1 ≠ h → fs1 h1 = fs h1 :=
  ⟨removeDir fs h, update_empty env nodes filename fs h hroute hnone,
    by simp [removeDir], fun h1 hh => by simp [removeDir, Function.update, hh]⟩

/-- C8, witness: a page whose only block is a `js` code block, with a directory
left over from an earlier version of the page. -/
theorem C8_witness :
    ∃ fs1, updateExtractedQueriesDir exampleEnv [⟨some "js".toList, "let x = `${a}`".toList⟩]
        "/proj/src/pages/index.md".toList
        (fun _ => some [(FileName.json 3, []), (FileName.json 4, [])]) = some ([], fs1) ∧
      fs1 (exampleEnv.md5 "/index".toList) = none ∧
      ∀ h1, h1 ≠ exampleEnv.md5 "/index".toList →
        fs1 h1 = (fun _ => some [(FileName.json 3, []), (FileName.json 4, [])] : CacheState) h1 :=
  C8_no_queries exampleEnv [⟨some "js".toList, "let x = `${a}`".toList⟩]
    "/proj/src/pages/index.md".toList _ (exampleEnv.md5 "/index".toList)
    (by decide) (by decide)

/-- C9 (as amended): a chain `q0, ..., qn` with `n` at most 100, laid out in any
document order `L`, where `qi` is `${q(i+1)}` for `i < n` and `qn` is a text `T`
without reference token; the ids are distinct, the referenced ones have no
closing brace, line terminator or outer white space, and they and `T` hold no
replacement pattern.  Resolution (the nested strings fitting the string limit)
ends with no error and with `qi` equal to `T` inside `n - i` pairs of
parentheses. -/
theorem C9_reference_chain (maxLen n : Nat) (ident : Nat → Str) (T : Str) (L : List Nat)
    (hn : n ≤ 100) (hc : ChainOk maxLen n ident T L) :
    resolve maxLen (L.map (fun i => mkQuery (ident i) (body0 n ident T i))) =
      some (L.map (fun i =>
        { id := ident i, compiledQueryString := wrapN (n - i) T,
          inputQueryString := body0 n ident T i, compiled := decide (i < n),
          compileError := none })) := by
  rw [chain_resolve maxLen n ident T L hn hc]
  congr 1
  apply List.map_congr_left
  intro i _
  have hb : body0 n ident T n = T := by
    unfold body0
    rw [if_neg (Nat.lt_irrefl n)]
  simp [stateQ, hb]

/-- C9, witness: the chain `q0 = ${q1}`, `q1 = ${q2}`, `q2 = select 1`, written
in the order `q1, q2, q0`. -/
theorem C9_witness :
    resolve 536870888 ([1, 2, 0].map (fun i =>
        mkQuery ['q', Char.ofNat (48 + i)]
          (body0 2 (fun i => ['q', Char.ofNat (48 + i)]) "select 1".toList i))) =
      some ([1, 2, 0].map (fun i =>
        { id := ['q', Char.ofNat (48 + i)], compiledQueryString := wrapN (2 - i) "select 1".toList,
          inputQueryString := body0 2 (fun i => ['q', Char.ofNat (48 + i)]) "select 1".toList i,
          compiled := decide (i < 2), compileError := none })) :=
  C9_reference_chain 536870888 2 (fun i => ['q', Char.ofNat (48 + i)]) "select 1".toList
    [1, 2, 0] (by decide)
    { perm := by decide
      inj := by
        intro i j hi hj h
        interval_cases i <;> interval_cases j <;> first | rfl | exact absurd h (by decide)
      referable := by
        intro i h1 h2
        interval_cases i <;> decide
      literalId := by
        intro i h1 h2
        interval_cases i <;> decide
      literalT := by decide
      noRefT := by decide
      fitId := by
        intro i h1 h2
        interval_cases i <;> decide
      fitT := by decide }

/-- C9, counterexample: in the chain `q0 = ${q1}`, `q1 = select $$a$$` the text
of `q1` reaches `q0` with one `$` of each pair missing; and a query whose id is
`q1}` cannot be named: `q0 = ${q1}}` ends with an unknown-reference error. -/
theorem C9_counterexample :
    (matchRefs "select $$a$$".toList = [] ∧
      resolve 536870888 [mkQuery "q0".toList "${q1}".toList,
          mkQuery "q1".toList "select $$a$$".toList] =
        some [{ id := "q0".toList, compiledQueryString := "(select $a$)".toList,
                inputQueryString := "${q1}".toList, compiled := true, compileError := none },
              mkQuery "q1".toList "select $$a$$".toList] ∧
      "(select $a$)".toList ≠ wrapN 1 "select $$a$$".toList) ∧
    (resolve 536870888 [mkQuery "q0".toList "$\x7bq1\x7d\x7d".toList,
          mkQuery "q1\x7d".toList "select 1".toList] =
        some [{ id := "q0".toList,
                compiledQueryString := "Compiler error: 'q1' is not a query on this page".toList,
                inputQueryString := "$\x7bq1\x7d\x7d".toList, compiled := true,
                compileError := some "Compiler error: 'q1' is not a query on this page".toList },
              mkQuery "q1\x7d".toList "select 1".toList]) := by
  decide

/-- C10 (as amended): `b`, whose body is a token naming no query, followed by
`a`, whose body is `${b}`: when `b`'s id has no closing brace, line terminator
or outer white space and the unknown-reference message `E` holds no replacement
pattern, resolution (the strings fitting the limit) ends with `b` carrying `E`
as error and body, and with `a` compiled, without error, its body being `(E)`. -/
theorem C10_error_text_spliced (maxLen : Nat) (aid bid inner : Str)
    (hb : Referable bid) (hok : innerOk inner)
    (hma : trim inner ≠ aid) (hmb : trim inner ≠ bid)
    (hlit : literalText (missingMessage (trim inner)) = true)
    (hfit : (missingMessage (trim inner)).length + 2 ≤ maxLen) :
    resolve maxLen [mkQuery bid (token inner), mkQuery aid (token bid)] =
      some [{ id := bid, compiledQueryString := missingMessage (trim inner),
              inputQueryString := token inner, compiled := true,
              compileError := some (missingMessage (trim inner)) },
            { id := aid, compiledQueryString := paren (missingMessage (trim inner)),
              inputQueryString := token bid, compiled := true, compileError := none }] :=
  c10_core maxLen aid bid inner hb hok hma hmb hlit hfit

/-- C10, witness: `b = ${m}` and then `a = ${b}`. -/
theorem C10_witness :
    resolve 536870888 [mkQuery "b".toList (token "m".toList),
        mkQuery "a".toList (token "b".toList)] =
      some [{ id := "b".toList, compiledQueryString := missingMessage (trim "m".toList),
              inputQueryString := token "m".toList, compiled := true,
              compileError := some (missingMessage (trim "m".toList)) },
            { id := "a".toList, compiledQueryString := paren (missingMessage (trim "m".toList)),
              inputQueryString := token "b".toList, compiled := true, compileError := none }] :=
  C10_error_text_spliced 536870888 "a".toList "b".toList "m".toList (by decide) (by decide)
    (by decide) (by decide) (by decide) (by decide)

/-- C10, counterexample: with `b = ${x$}` the message of `b` holds `$` followed
by a quote, and `a` receives the message without it; and when the id of `b` is
`b}`, the body `${b}}` of `a` names `b`, which is no query, so that `a` ends
with an error of its own. -/
theorem C10_counterexample :
    (resolve 536870888 [mkQuery "b".toList "${x$}".toList, mkQuery "a".toList "${b}".toList] =
      some [{ id := "b".toList,
              compiledQueryString := "Compiler error: 'x$' is not a query on this page".toList,
              inputQueryString := "${x$}".toList, compiled := true,
              compileError := some "Compiler error: 'x$' is not a query on this page".toList },
            { id := "a".toList,
              compiledQueryString := "(Compiler error: 'x is not a query on this page)".toList,
              inputQueryString := "${b}".toList, compiled := true, compileError := none }] ∧
      "(Compiler error: 'x is not a query on this page)".toList ≠
        paren (missingMessage "x$".toList)) ∧
    (resolve 536870888 [mkQuery "b\x7d".toList "${m}".toList,
          mkQuery "a".toList "$\x7bb\x7d\x7d".toList] =
      some [{ id := "b\x7d".toList,
              compiledQueryString := "Compiler error: 'm' is not a query on this page".toList,
              inputQueryString := "${m}".toList, compiled := true,
              compileError := some "Compiler error: 'm' is not a query on this page".toList },
            { id := "a".toList,
              compiledQueryString := "Compiler error: 'b' is not a query on this page".toList,
              inputQueryString := "$\x7bb\x7d\x7d".toList, compiled := true,
              compileError := some "Compiler error: 'b' is not a query on this page".toList }]) := by
  decide

end Preprocess
